import Mathlib

/-!
# Scanline polygon fill (ET / AET) of `DrawingCanvas`

A shallow embedding of `DrawingCanvas::fillPolygon` and
`DrawingCanvas::buildEdgeTable` (src/trabalho-cg/drawingcanvas.cpp) together
with the properties stated for the fill engine.

Modelling conventions

* `int` is `Int` (coordinates are canvas pixels, far from the 32-bit limits,
  so no wrap-around is modelled);
* `double` is `ℚ`: `x_current` and `inv_slope` are taken as exact rationals,
  so the quotient `inv_slope` and the incremental update `x_current += inv_slope`
  are exact here, while the program rounds both to the nearest double (for
  instance `2 + 1/6 + 1/6 + 1/6` is `5/2` here and `2.4999999999999996` in the
  program); among the claims settled at the end, only edge coherence (C10) relies
  on this exactness, the others are stated so that they hold for the rounded
  arithmetic as well;
* `QVector<T>` is `List T`; `QMap<int, QVector<EdgeInfo>>` is an association
  list kept in strictly ascending key order (`QMap` iterates in key order);
* `std::sort` with the comparator `a.x_current < b.x_current` is a stable
  insertion sort (what libstdc++ and libc++ run on short ranges); the
  comparator looks at `x_current` only;
* `round` is C `round`: to nearest, halves away from zero;
* the message box shown for fewer than three vertices is the error value
  `FillError.InsufficientVertices`; `update()` (a repaint request) has no
  effect on the modelled state.
-/

namespace TrabalhoCG

/-! ## Data model -/

/-- Integer point of the canvas (`QPoint`). -/
structure QPoint where
  x : Int
  y : Int
deriving DecidableEq

/-- Integer line segment (`QLine`), here always a horizontal span. -/
structure QLine where
  x1 : Int
  y1 : Int
  x2 : Int
  y2 : Int
deriving DecidableEq

/-- Edge record of the scanline algorithm (`struct EdgeInfo`). -/
structure EdgeInfo where
  ymax : Int
  x_current : ℚ
  inv_slope : ℚ
deriving DecidableEq

/-- The edge table, `QMap<int, QVector<EdgeInfo>>`: buckets in ascending key order. -/
abbrev QMap := List (Int × List EdgeInfo)

/-- The statement `edgeTable[key].append(e)`: `operator[]` creates an empty
bucket when the key is absent, then the record is appended to the bucket. -/
def QMap.appendAt (key : Int) (e : EdgeInfo) : QMap → QMap
  | [] => [(key, [e])]
  | (k, bucket) :: rest =>
    if key < k then (key, [e]) :: (k, bucket) :: rest
    else if key = k then (k, bucket ++ [e]) :: rest
    else (k, bucket) :: QMap.appendAt key e rest

/-- The test `edgeTable.contains(y)`. -/
def QMap.contains (m : QMap) (y : Int) : Bool :=
  m.any (fun kv => kv.1 == y)

/-- The bucket `edgeTable[y]` (empty when the key is absent). -/
def QMap.value : QMap → Int → List EdgeInfo
  | [], _ => []
  | (k, bucket) :: rest, y => if k = y then bucket else QMap.value rest y

/-- The smallest key, `edgeTable.firstKey()` (only called on a non-empty map). -/
def QMap.firstKey : QMap → Int
  | [] => 0
  | (k, _) :: _ => k

/-! ## buildEdgeTable -/

/-- Body of the loop of `buildEdgeTable` for the edge `(p1, p2)`: nothing for a
horizontal edge, otherwise the key `y_min` and the record
`{y_max, x_at_ymin, inv_slope}`. -/
def edgeRecord (p1 p2 : QPoint) : Option (Int × EdgeInfo) :=
  if p1.y = p2.y then none
  else
    let y_min := min p1.y p2.y
    let y_max := max p1.y p2.y
    let x_at_ymin : ℚ := if p1.y < p2.y then (p1.x : ℚ) else (p2.x : ℚ)
    let inv_slope : ℚ := ((p2.x - p1.x : Int) : ℚ) / ((p2.y - p1.y : Int) : ℚ)
    some (y_min, ⟨y_max, x_at_ymin, inv_slope⟩)

/-- The edge visited at index `i`: `(vertices[i], vertices[(i + 1) % size])`. -/
def edgeAt (vertices : List QPoint) (i : Nat) : QPoint × QPoint :=
  (vertices.getD i ⟨0, 0⟩, vertices.getD ((i + 1) % vertices.length) ⟨0, 0⟩)

/-- One iteration of the loop of `buildEdgeTable`. -/
def edgeStep (vertices : List QPoint) (edgeTable : QMap) (i : Nat) : QMap :=
  match edgeRecord (edgeAt vertices i).1 (edgeAt vertices i).2 with
  | none => edgeTable
  | some (y_min, e) => QMap.appendAt y_min e edgeTable

/-- `DrawingCanvas::buildEdgeTable`, run on an empty table. -/
def buildEdgeTable (vertices : List QPoint) : QMap :=
  (List.range vertices.length).foldl (edgeStep vertices) []

/-! ## fillPolygon -/

/-- C `round` followed by the cast to `int`: nearest integer, halves away from zero. -/
def roundHalfAway (q : ℚ) : Int :=
  if 0 ≤ q then ⌊q + 1 / 2⌋ else -⌊-q + 1 / 2⌋

/-- Order induced by the comparator of the sort, `a.x_current < b.x_current`:
`a` may stand before `b` when `b` is not strictly less than `a`. -/
def xLE (a b : EdgeInfo) : Prop := a.x_current ≤ b.x_current

instance : DecidableRel xLE := fun a b => inferInstanceAs (Decidable (a.x_current ≤ b.x_current))

instance : IsTotal EdgeInfo xLE := ⟨fun a b => le_total a.x_current b.x_current⟩

instance : IsTrans EdgeInfo xLE := ⟨fun _ _ _ hab hbc => le_trans (α := ℚ) hab hbc⟩

/-- Step 2c, `std::sort` of the AET by `x_current` (stable insertion sort). -/
def sortAET (aet : List EdgeInfo) : List EdgeInfo :=
  aet.insertionSort xLE

/-- Step 2d, the pairing loop `for (i = 0; i < size; i += 2) if (i + 1 < size) ...`:
one span per pair `(AET[i], AET[i+1])` whose rounded ends satisfy `x_start < x_end`. -/
def emitPairs (y : Int) : List EdgeInfo → List QLine
  | a :: b :: rest =>
    (if roundHalfAway a.x_current < roundHalfAway b.x_current
      then [⟨roundHalfAway a.x_current, y, roundHalfAway b.x_current, y⟩] else [])
      ++ emitPairs y rest
  | _ => []

/-- Step 2e for one record, `edge.x_current += edge.inv_slope`. -/
def advance (e : EdgeInfo) : EdgeInfo :=
  { e with x_current := e.x_current + e.inv_slope }

/-- State of the scanline loop: the AET, the spans appended so far, and a ghost
log holding, for every scanline visited, the AET as it stands at the pairing
step (after admission, retirement and, when non-empty, the sort). -/
structure ScanState where
  activeEdgeTable : List EdgeInfo
  filledScanlines : List QLine
  pairing : List (Int × List EdgeInfo)

/-- Body of the loop `for (int y = y_min; y <= y_max; ++y)`. -/
def scanlineBody (edgeTable : QMap) (y : Int) (s : ScanState) : ScanState :=
  let joined :=
    if QMap.contains edgeTable y then s.activeEdgeTable ++ QMap.value edgeTable y
    else s.activeEdgeTable
  let kept := joined.filter (fun e => e.ymax != y)
  if kept.isEmpty then
    ⟨kept, s.filledScanlines, s.pairing ++ [(y, kept)]⟩
  else
    let sorted := sortAET kept
    ⟨sorted.map advance, s.filledScanlines ++ emitPairs y sorted, s.pairing ++ [(y, sorted)]⟩

/-- The scanline loop: `n` iterations starting at scanline `y`. -/
def scanlineLoop (edgeTable : QMap) : Nat → Int → ScanState → ScanState
  | 0, _, s => s
  | n + 1, y, s => scanlineLoop edgeTable n (y + 1) (scanlineBody edgeTable y s)

/-- The global upper bound of the scan: starts at `0` and is raised to every
larger `ymax` found in the table. -/
def globalYMax (edgeTable : QMap) : Int :=
  edgeTable.foldl
    (fun acc kv => kv.2.foldl (fun m e => if e.ymax > m then e.ymax else m) acc) 0

/-- The part of `fillPolygon` after the vertex-count check: build the edge
table, return at once when it is empty, otherwise scan from `firstKey` through
the global `y_max` inclusive. -/
def scanPolygon (vertices : List QPoint) : ScanState :=
  let edgeTable := buildEdgeTable vertices
  if edgeTable.isEmpty then ⟨[], [], []⟩
  else
    let y_min := QMap.firstKey edgeTable
    let y_max := globalYMax edgeTable
    scanlineLoop edgeTable (y_max + 1 - y_min).toNat y_min ⟨[], [], []⟩

/-- The only failure of the fill. -/
inductive FillError where
  | InsufficientVertices
deriving DecidableEq

/-- The state of `DrawingCanvas` that `fillPolygon` reads or writes. -/
structure DrawingCanvas where
  vertices : List QPoint
  filledScanlines : List QLine
  polygonDrawn : Bool
deriving DecidableEq

/-- `DrawingCanvas::fillPolygon`: the error raised (if any) and the state left behind. -/
def fillPolygon (c : DrawingCanvas) : Option FillError × DrawingCanvas :=
  if c.vertices.length < 3 then (some FillError.InsufficientVertices, c)
  else
    (none,
      { vertices := c.vertices
        filledScanlines := (scanPolygon c.vertices).filledScanlines
        polygonDrawn := true })

/-- The operation `fill(vertices) → spans | error`: `fillPolygon` on a canvas
holding `vertices`, returning the stored spans. -/
def fill (vertices : List QPoint) : Except FillError (List QLine) :=
  match fillPolygon ⟨vertices, [], false⟩ with
  | (some err, _) => Except.error err
  | (none, c) => Except.ok c.filledScanlines

/-- The AET at the pairing step of every scanline visited by `fillPolygon`. -/
def pairingTrace (vertices : List QPoint) : List (Int × List EdgeInfo) :=
  (scanPolygon vertices).pairing

/-! ## Auxiliary notions used in the statements and proofs -/

/-- Keys of a table are strictly ascending. -/
def QMap.Ordered (m : QMap) : Prop := (m.map Prod.fst).Pairwise (· < ·)

/-- All records stored in a table, bucket after bucket. -/
def QMap.records (m : QMap) : List EdgeInfo := (m.map Prod.snd).flatten

/-- The edges visited by `buildEdgeTable`, in visiting order. -/
def edges (vertices : List QPoint) : List (QPoint × QPoint) :=
  (List.range vertices.length).map (edgeAt vertices)

/-- The keyed records `buildEdgeTable` appends, in visiting order. -/
def edgeRecords (vertices : List QPoint) : List (Int × EdgeInfo) :=
  (edges vertices).filterMap (fun pq => edgeRecord pq.1 pq.2)

/-- Appending a list of keyed records to a table, one after the other. -/
def insertAll (recs : List (Int × EdgeInfo)) (m : QMap) : QMap :=
  recs.foldl (fun acc r => QMap.appendAt r.1 r.2 acc) m

/-- The record of a keyed edge record `(y_min, e)` as it stands on scanline `y`:
`x_current` moved by `y - y_min` times `inv_slope`. -/
def recAt (y : Int) (r : Int × EdgeInfo) : EdgeInfo :=
  ⟨r.2.ymax, r.2.x_current + ((y - r.1 : Int) : ℚ) * r.2.inv_slope, r.2.inv_slope⟩

/-- The records with `y_min ≤ y < y_max`, each as it stands on scanline `y`. -/
def activeAt (recs : List (Int × EdgeInfo)) (y : Int) : List EdgeInfo :=
  (recs.filter (fun r => decide (r.1 ≤ y ∧ y < r.2.ymax))).map (recAt y)

/-- The AET at the head of iteration `y`: what was active on `y - 1`, advanced to `y`. -/
def carriedAt (recs : List (Int × EdgeInfo)) (y : Int) : List EdgeInfo :=
  (recs.filter (fun r => decide (r.1 < y ∧ y ≤ r.2.ymax))).map (recAt y)

/-- The spans of scanline `y` computed from the keyed records alone. -/
def spansAt (recs : List (Int × EdgeInfo)) (y : Int) : List QLine :=
  emitPairs y (sortAET (activeAt recs y))

/-- The spans of `n` consecutive scanlines starting at `y`. -/
def spansFrom (recs : List (Int × EdgeInfo)) : Nat → Int → List QLine
  | 0, _ => []
  | n + 1, y => spansAt recs y ++ spansFrom recs n (y + 1)

/-- The `n` consecutive scanlines starting at `y`. -/
def scanlines : Nat → Int → List Int
  | 0, _ => []
  | n + 1, y => y :: scanlines n (y + 1)

/-- Every keyed record ends strictly below where it starts (`y_min < y_max`). -/
def WellKeyed (recs : List (Int × EdgeInfo)) : Prop :=
  ∀ r ∈ recs, r.1 < r.2.ymax

/-- The pairing loop on the bare crossing abscissas. -/
def emitXs (y : Int) : List ℚ → List QLine
  | a :: b :: rest =>
    (if roundHalfAway a < roundHalfAway b
      then [⟨roundHalfAway a, y, roundHalfAway b, y⟩] else [])
      ++ emitXs y rest
  | _ => []

/-- The record `e` after `k` executions of step 2e. -/
def advanceBy (k : Nat) (e : EdgeInfo) : EdgeInfo :=
  advance^[k] e

/-- Order of the specification's AET: ascending `x_current`, ties by ascending `inv_slope`. -/
def tieBrokenLE (a b : EdgeInfo) : Prop :=
  a.x_current < b.x_current ∨ (a.x_current = b.x_current ∧ a.inv_slope ≤ b.inv_slope)

instance : DecidableRel tieBrokenLE := fun a b =>
  inferInstanceAs (Decidable
    (a.x_current < b.x_current ∨ (a.x_current = b.x_current ∧ a.inv_slope ≤ b.inv_slope)))

/-- The diamond of the specification's third scenario. -/
def diamond : List QPoint := [⟨5, 0⟩, ⟨10, 5⟩, ⟨5, 10⟩, ⟨0, 5⟩]

/-- Order of the emitted spans: ascending `y`, and ascending `x_start` on equal `y`. -/
def spanBefore (s t : QLine) : Prop :=
  s.y1 < t.y1 ∨ (s.y1 = t.y1 ∧ s.x1 < t.x1)

instance : DecidableRel spanBefore := fun s t =>
  inferInstanceAs (Decidable (s.y1 < t.y1 ∨ (s.y1 = t.y1 ∧ s.x1 < t.x1)))

/-- Closed form of the edge-coherence statement, in its words: `x_at_ymin` plus
`(y - y_min)` times `(p2.x - p1.x) / (p2.y - p1.y)`. -/
def closedFormX (p1 p2 : QPoint) (y : Int) : ℚ :=
  (if p1.y < p2.y then (p1.x : ℚ) else (p2.x : ℚ))
    + ((y : ℚ) - ((min p1.y p2.y : Int) : ℚ)) * (((p2.x : ℚ) - (p1.x : ℚ)) / ((p2.y : ℚ) - (p1.y : ℚ)))

/-- The abscissa at which the line through `p1` and `p2` meets height `y`. -/
def crossingX (p1 p2 : QPoint) (y : Int) : ℚ :=
  (p1.x : ℚ) + ((y : ℚ) - (p1.y : ℚ)) * (((p2.x : ℚ) - (p1.x : ℚ)) / ((p2.y : ℚ) - (p1.y : ℚ)))

/-- The axis-aligned rectangle with corners `(x0, y0)` and `(x1, y1)`. -/
def rectangle (x0 y0 x1 y1 : Int) : List QPoint :=
  [⟨x0, y0⟩, ⟨x1, y0⟩, ⟨x1, y1⟩, ⟨x0, y1⟩]

/-- Cyclic rotation of a vertex list by an integer number of positions. -/
def rotateVertices (vertices : List QPoint) (k : Int) : List QPoint :=
  vertices.rotate (k % (vertices.length : Int)).toNat

/-- The vertex `p` moved by `(dx, dy)`. -/
def translate (dx dy : Int) (p : QPoint) : QPoint :=
  ⟨p.x + dx, p.y + dy⟩

/-- The span `(x_start, y, x_end, y)` moved by `(dx, dy)`. -/
def translateSpan (dx dy : Int) (s : QLine) : QLine :=
  ⟨s.x1 + dx, s.y1 + dy, s.x2 + dx, s.y2 + dy⟩

/-- The edge record of an edge moved by `(dx, dy)`. -/
def translateRecord (dx dy : Int) (e : EdgeInfo) : EdgeInfo :=
  ⟨e.ymax + dy, e.x_current + (dx : ℚ), e.inv_slope⟩

/-- The keyed edge record of an edge moved by `(dx, dy)`. -/
def translateKeyed (dx dy : Int) (r : Int × EdgeInfo) : Int × EdgeInfo :=
  (r.1 + dy, translateRecord dx dy r.2)

/-- A triangle one of whose edges crosses scanline `1` at the half-integer `1/2`. -/
def halfCrossing : List QPoint := [⟨0, 0⟩, ⟨4, 0⟩, ⟨1, 2⟩]

/-! ## The edge table as a map -/

theorem QMap.mem_keys_appendAt (key : Int) (e : EdgeInfo) (m : QMap) (k : Int) :
    k ∈ (QMap.appendAt key e m).map Prod.fst ↔ k = key ∨ k ∈ m.map Prod.fst := by
  induction m with
  | nil => simp [QMap.appendAt]
  | cons kv rest ih =>
    obtain ⟨k0, b⟩ := kv
    unfold QMap.appendAt
    split_ifs with h1 h2
    · simp
    · subst h2; simp
    · simp only [List.map_cons, List.mem_cons, ih]
      tauto

theorem QMap.ordered_appendAt (key : Int) (e : EdgeInfo) (m : QMap) (h : QMap.Ordered m) :
    QMap.Ordered (QMap.appendAt key e m) := by
  induction m with
  | nil => simp [QMap.appendAt, QMap.Ordered]
  | cons kv rest ih =>
    obtain ⟨k0, b⟩ := kv
    have h0 : ∀ k ∈ rest.map Prod.fst, k0 < k := by
      intro k hk
      exact (List.pairwise_cons.mp h).1 k hk
    have hrest : QMap.Ordered rest := (List.pairwise_cons.mp h).2
    unfold QMap.appendAt
    split_ifs with h1 h2
    · refine List.pairwise_cons.mpr ⟨?_, h⟩
      intro k hk
      rcases List.mem_cons.mp hk with hk | hk
      · simpa [hk] using h1
      · exact lt_trans h1 (h0 k hk)
    · simpa [QMap.Ordered] using h
    · refine List.pairwise_cons.mpr ⟨?_, ih hrest⟩
      intro k hk
      rcases (QMap.mem_keys_appendAt key e rest k).mp hk with hk | hk
      · subst hk
        simp only at h1 h2 ⊢
        omega
      · exact h0 k hk

theorem QMap.value_of_not_mem (m : QMap) (y : Int) (h : y ∉ m.map Prod.fst) :
    QMap.value m y = [] := by
  induction m with
  | nil => rfl
  | cons kv rest ih =>
    obtain ⟨k0, b⟩ := kv
    simp only [List.map_cons, List.mem_cons, not_or] at h
    simp only [QMap.value]
    rw [if_neg (fun hk => h.1 hk.symm)]
    exact ih h.2

theorem QMap.value_appendAt (key : Int) (e : EdgeInfo) (m : QMap) (h : QMap.Ordered m)
    (y : Int) :
    QMap.value (QMap.appendAt key e m) y
      = if key = y then QMap.value m y ++ [e] else QMap.value m y := by
  induction m with
  | nil =>
    by_cases hy : key = y <;> simp [QMap.appendAt, QMap.value, hy]
  | cons kv rest ih =>
    obtain ⟨k0, b⟩ := kv
    have h0 : ∀ k ∈ rest.map Prod.fst, k0 < k := by
      intro k hk
      exact (List.pairwise_cons.mp h).1 k hk
    have hrest : QMap.Ordered rest := (List.pairwise_cons.mp h).2
    unfold QMap.appendAt
    by_cases h1 : key < k0
    · rw [if_pos h1]
      by_cases hy : key = y
      · subst hy
        have hnot : key ∉ rest.map Prod.fst := fun hk => by
          have := h0 key hk
          omega
        have hne : ¬ k0 = key := by omega
        simp [QMap.value, hne, QMap.value_of_not_mem rest key hnot]
      · simp [QMap.value, hy]
    · rw [if_neg h1]
      by_cases h2 : key = k0
      · rw [if_pos h2]
        subst h2
        by_cases hy : key = y
        · subst hy
          simp [QMap.value]
        · simp [QMap.value, hy]
      · rw [if_neg h2]
        by_cases hy : key = y
        · subst hy
          have hk : ¬ k0 = key := fun hk => h2 hk.symm
          simp [QMap.value, hk, ih hrest]
        · simp [QMap.value, hy, ih hrest]

theorem QMap.contains_iff (m : QMap) (y : Int) :
    QMap.contains m y = true ↔ y ∈ m.map Prod.fst := by
  simp only [QMap.contains, List.any_eq_true, beq_iff_eq, List.mem_map]

theorem QMap.firstKey_le (m : QMap) (h : QMap.Ordered m) (k : Int)
    (hk : k ∈ m.map Prod.fst) : QMap.firstKey m ≤ k := by
  cases m with
  | nil => simp at hk
  | cons kv rest =>
    obtain ⟨k0, b⟩ := kv
    simp only [List.map_cons, List.mem_cons] at hk
    rcases hk with hk | hk
    · simp [QMap.firstKey, hk]
    · exact le_of_lt ((List.pairwise_cons.mp h).1 k hk)

theorem QMap.firstKey_mem (m : QMap) (h : m ≠ []) : QMap.firstKey m ∈ m.map Prod.fst := by
  cases m with
  | nil => exact absurd rfl h
  | cons kv rest => simp [QMap.firstKey]

theorem QMap.mem_records_appendAt (key : Int) (e : EdgeInfo) (m : QMap) (r : EdgeInfo) :
    r ∈ QMap.records (QMap.appendAt key e m) ↔ r = e ∨ r ∈ QMap.records m := by
  induction m with
  | nil => simp [QMap.appendAt, QMap.records]
  | cons kv rest ih =>
    obtain ⟨k0, b⟩ := kv
    unfold QMap.appendAt
    split_ifs with h1 h2
    · simp [QMap.records]
    · simp only [QMap.records, List.map_cons, List.flatten_cons, List.mem_append,
        List.mem_singleton]
      tauto
    · simp only [QMap.records, List.map_cons, List.flatten_cons, List.mem_append] at ih ⊢
      rw [ih]
      tauto

theorem insertAll_ordered (recs : List (Int × EdgeInfo)) (m : QMap) (h : QMap.Ordered m) :
    QMap.Ordered (insertAll recs m) := by
  induction recs generalizing m with
  | nil => exact h
  | cons r rest ih => exact ih _ (QMap.ordered_appendAt r.1 r.2 m h)

theorem value_insertAll (recs : List (Int × EdgeInfo)) (m : QMap) (h : QMap.Ordered m)
    (y : Int) :
    QMap.value (insertAll recs m) y
      = QMap.value m y ++ (recs.filter (fun r => r.1 = y)).map Prod.snd := by
  induction recs generalizing m with
  | nil => simp [insertAll]
  | cons r rest ih =>
    have := ih _ (QMap.ordered_appendAt r.1 r.2 m h)
    simp only [insertAll, List.foldl_cons] at this ⊢
    rw [this, QMap.value_appendAt r.1 r.2 m h y]
    by_cases hy : r.1 = y <;> simp [hy, List.filter_cons]

theorem mem_keys_insertAll (recs : List (Int × EdgeInfo)) (m : QMap) (k : Int) :
    k ∈ (insertAll recs m).map Prod.fst ↔ k ∈ m.map Prod.fst ∨ ∃ r ∈ recs, r.1 = k := by
  induction recs generalizing m with
  | nil => simp [insertAll]
  | cons r rest ih =>
    have := ih (QMap.appendAt r.1 r.2 m)
    simp only [insertAll, List.foldl_cons] at this ⊢
    rw [this, QMap.mem_keys_appendAt]
    simp only [List.mem_cons, exists_eq_or_imp]
    constructor
    · rintro ((h | h) | h)
      · exact Or.inr (Or.inl h.symm)
      · exact Or.inl h
      · exact Or.inr (Or.inr h)
    · rintro (h | h | h)
      · exact Or.inl (Or.inr h)
      · exact Or.inl (Or.inl h.symm)
      · exact Or.inr h

theorem mem_records_insertAll (recs : List (Int × EdgeInfo)) (m : QMap) (e : EdgeInfo) :
    e ∈ QMap.records (insertAll recs m) ↔ e ∈ QMap.records m ∨ ∃ r ∈ recs, r.2 = e := by
  induction recs generalizing m with
  | nil => simp [insertAll]
  | cons r rest ih =>
    have := ih (QMap.appendAt r.1 r.2 m)
    simp only [insertAll, List.foldl_cons] at this ⊢
    rw [this, QMap.mem_records_appendAt]
    simp only [List.mem_cons, exists_eq_or_imp]
    constructor
    · rintro ((h | h) | h)
      · exact Or.inr (Or.inl h.symm)
      · exact Or.inl h
      · exact Or.inr (Or.inr h)
    · rintro (h | h | h)
      · exact Or.inl (Or.inr h)
      · exact Or.inl (Or.inl h.symm)
      · exact Or.inr h

theorem insertAll_eq_nil (recs : List (Int × EdgeInfo)) :
    insertAll recs [] = [] ↔ recs = [] := by
  constructor
  · intro h
    cases recs with
    | nil => rfl
    | cons r rest =>
      have hk : r.1 ∈ (insertAll (r :: rest) []).map Prod.fst :=
        (mem_keys_insertAll (r :: rest) [] r.1).mpr (Or.inr ⟨r, List.mem_cons_self _ _, rfl⟩)
      rw [h] at hk
      simp at hk
  · rintro rfl
    rfl

theorem foldl_edgeStep (vertices : List QPoint) (l : List Nat) (m : QMap) :
    l.foldl (edgeStep vertices) m
      = insertAll ((l.map (edgeAt vertices)).filterMap (fun pq => edgeRecord pq.1 pq.2)) m := by
  induction l generalizing m with
  | nil => rfl
  | cons i rest ih =>
    simp only [List.foldl_cons, List.map_cons, List.filterMap_cons]
    rw [ih]
    unfold edgeStep
    cases hrec : edgeRecord (edgeAt vertices i).1 (edgeAt vertices i).2 with
    | none => rfl
    | some r => rfl

theorem buildEdgeTable_eq (vertices : List QPoint) :
    buildEdgeTable vertices = insertAll (edgeRecords vertices) [] := by
  unfold buildEdgeTable edgeRecords edges
  exact foldl_edgeStep vertices _ []

/-! ## The global upper bound of the scan -/

theorem foldl_ymax_ge (l : List EdgeInfo) (a : Int) :
    a ≤ l.foldl (fun m e => if e.ymax > m then e.ymax else m) a
      ∧ (∀ e ∈ l, e.ymax ≤ l.foldl (fun m e => if e.ymax > m then e.ymax else m) a)
      ∧ (l.foldl (fun m e => if e.ymax > m then e.ymax else m) a = a
          ∨ ∃ e ∈ l, e.ymax = l.foldl (fun m e => if e.ymax > m then e.ymax else m) a) := by
  induction l generalizing a with
  | nil => simp
  | cons e rest ih =>
    simp only [List.foldl_cons, List.mem_cons, forall_eq_or_imp, exists_eq_or_imp]
    by_cases hc : e.ymax > a
    · obtain ⟨h1, h2, h3⟩ := ih e.ymax
      rw [if_pos hc]
      refine ⟨by omega, ⟨h1, h2⟩, ?_⟩
      rcases h3 with h3 | h3
      · exact Or.inr (Or.inl h3.symm)
      · exact Or.inr (Or.inr h3)
    · obtain ⟨h1, h2, h3⟩ := ih a
      rw [if_neg hc]
      refine ⟨h1, ⟨by omega, h2⟩, ?_⟩
      rcases h3 with h3 | h3
      · exact Or.inl h3
      · exact Or.inr (Or.inr h3)

theorem globalYMax_eq (m : QMap) :
    globalYMax m = (QMap.records m).foldl (fun m e => if e.ymax > m then e.ymax else m) 0 := by
  unfold globalYMax QMap.records
  generalize (0 : Int) = a
  induction m generalizing a with
  | nil => rfl
  | cons kv rest ih =>
    simp only [List.foldl_cons, List.map_cons, List.flatten_cons, List.foldl_append]
    exact ih _

theorem globalYMax_spec (recs : List (Int × EdgeInfo)) :
    0 ≤ globalYMax (insertAll recs [])
      ∧ (∀ r ∈ recs, r.2.ymax ≤ globalYMax (insertAll recs []))
      ∧ (globalYMax (insertAll recs []) = 0
          ∨ ∃ r ∈ recs, r.2.ymax = globalYMax (insertAll recs [])) := by
  rw [globalYMax_eq]
  obtain ⟨h1, h2, h3⟩ := foldl_ymax_ge (QMap.records (insertAll recs [])) 0
  refine ⟨h1, ?_, ?_⟩
  · intro r hr
    exact h2 r.2 ((mem_records_insertAll recs [] r.2).mpr (Or.inr ⟨r, hr, rfl⟩))
  · rcases h3 with h3 | ⟨e, he, h3⟩
    · exact Or.inl h3
    · rcases (mem_records_insertAll recs [] e).mp he with h | ⟨r, hr, rfl⟩
      · simp [QMap.records] at h
      · exact Or.inr ⟨r, hr, h3⟩

theorem firstKey_spec (recs : List (Int × EdgeInfo)) (h : recs ≠ []) :
    (∃ r ∈ recs, r.1 = QMap.firstKey (insertAll recs []))
      ∧ ∀ r ∈ recs, QMap.firstKey (insertAll recs []) ≤ r.1 := by
  have hord : QMap.Ordered (insertAll recs []) := insertAll_ordered recs [] (by simp [QMap.Ordered])
  have hne : insertAll recs [] ≠ [] := fun hnil => h ((insertAll_eq_nil recs).mp hnil)
  constructor
  · have := QMap.firstKey_mem _ hne
    rcases (mem_keys_insertAll recs [] _).mp this with h1 | h1
    · simp at h1
    · exact h1
  · intro r hr
    exact QMap.firstKey_le _ hord r.1
      ((mem_keys_insertAll recs [] r.1).mpr (Or.inr ⟨r, hr, rfl⟩))

/-! ## One iteration of the scanline loop -/

theorem sortAET_perm (l : List EdgeInfo) : (sortAET l).Perm l :=
  List.perm_insertionSort xLE l

theorem sortAET_sorted (l : List EdgeInfo) : (sortAET l).Sorted xLE :=
  List.sorted_insertionSort xLE l

theorem pair_induction {α : Type} {P : List α → Prop} (h0 : P []) (h1 : ∀ a, P [a])
    (h2 : ∀ a b rest, P rest → P (a :: b :: rest)) : ∀ l, P l := by
  have key : ∀ l, P l ∧ ∀ a, P (a :: l) := by
    intro l
    induction l with
    | nil => exact ⟨h0, h1⟩
    | cons b rest ih => exact ⟨ih.2 b, fun a => h2 a b rest ih.1⟩
  exact fun l => (key l).1

theorem emitPairs_eq_emitXs (y : Int) (l : List EdgeInfo) :
    emitPairs y l = emitXs y (l.map EdgeInfo.x_current) := by
  induction l using pair_induction with
  | h0 => rfl
  | h1 a => rfl
  | h2 a b rest ih => simp [emitPairs, emitXs, ih]

theorem sorted_xs (l : List EdgeInfo) (h : l.Sorted xLE) :
    (l.map EdgeInfo.x_current).Sorted (· ≤ ·) := by
  unfold List.Sorted at h ⊢
  rw [List.pairwise_map]
  exact h

theorem xs_eq_of_perm_sorted (l₁ l₂ : List EdgeInfo) (hp : l₁.Perm l₂)
    (h₁ : l₁.Sorted xLE) (h₂ : l₂.Sorted xLE) :
    l₁.map EdgeInfo.x_current = l₂.map EdgeInfo.x_current :=
  List.eq_of_perm_of_sorted (hp.map _) (sorted_xs l₁ h₁) (sorted_xs l₂ h₂)

theorem emitPairs_of_perm_sorted (y : Int) (l₁ l₂ : List EdgeInfo) (hp : l₁.Perm l₂)
    (h₁ : l₁.Sorted xLE) (h₂ : l₂.Sorted xLE) : emitPairs y l₁ = emitPairs y l₂ := by
  rw [emitPairs_eq_emitXs, emitPairs_eq_emitXs, xs_eq_of_perm_sorted l₁ l₂ hp h₁ h₂]

theorem emitPairs_sort_perm (y : Int) (l₁ l₂ : List EdgeInfo) (hp : l₁.Perm l₂) :
    emitPairs y (sortAET l₁) = emitPairs y (sortAET l₂) :=
  emitPairs_of_perm_sorted y _ _
    (((sortAET_perm l₁).trans hp).trans (sortAET_perm l₂).symm)
    (sortAET_sorted l₁) (sortAET_sorted l₂)

theorem scanlineBody_eq (edgeTable : QMap) (y : Int) (s : ScanState) :
    scanlineBody edgeTable y s
      = ⟨(sortAET ((s.activeEdgeTable ++ QMap.value edgeTable y).filter
            (fun e => e.ymax != y))).map advance,
          s.filledScanlines ++ emitPairs y (sortAET
            ((s.activeEdgeTable ++ QMap.value edgeTable y).filter (fun e => e.ymax != y))),
          s.pairing ++ [(y, sortAET
            ((s.activeEdgeTable ++ QMap.value edgeTable y).filter (fun e => e.ymax != y)))]⟩ := by
  have hadm : (if QMap.contains edgeTable y then s.activeEdgeTable ++ QMap.value edgeTable y
      else s.activeEdgeTable) = s.activeEdgeTable ++ QMap.value edgeTable y := by
    by_cases hc : QMap.contains edgeTable y = true
    · rw [if_pos hc]
    · rw [if_neg hc]
      have : y ∉ edgeTable.map Prod.fst := fun hk => hc ((QMap.contains_iff edgeTable y).mpr hk)
      rw [QMap.value_of_not_mem edgeTable y this, List.append_nil]
  unfold scanlineBody
  simp only [hadm]
  by_cases hk : ((s.activeEdgeTable ++ QMap.value edgeTable y).filter
      (fun e => e.ymax != y)).isEmpty = true
  · rw [if_pos hk]
    rw [List.isEmpty_iff] at hk
    rw [hk]
    simp [sortAET, emitPairs]
  · rw [if_neg hk]

theorem filter_append_perm {α : Type} (p q : α → Bool) (l : List α)
    (hpq : ∀ a ∈ l, ¬ (p a = true ∧ q a = true)) :
    (l.filter p ++ l.filter q).Perm (l.filter (fun a => p a || q a)) := by
  induction l with
  | nil => simp
  | cons a rest ih =>
    have ih1 := ih (fun b hb => hpq b (List.mem_cons_of_mem _ hb))
    have ha := hpq a (List.mem_cons_self _ _)
    cases hp : p a <;> cases hq : q a
    · simpa [List.filter_cons, hp, hq] using ih1
    · simp only [List.filter_cons, hp, hq, Bool.false_eq_true, if_false, if_true, Bool.or_true]
      exact List.perm_middle.trans (List.Perm.cons a ih1)
    · simp only [List.filter_cons, hp, hq, Bool.false_eq_true, if_false, if_true, Bool.or_false,
        List.cons_append]
      exact List.Perm.cons a ih1
    · exact absurd ⟨hp, hq⟩ ha

theorem recAt_self (r : Int × EdgeInfo) : recAt r.1 r = r.2 := by
  simp [recAt]

theorem advance_recAt (y : Int) (r : Int × EdgeInfo) : advance (recAt y r) = recAt (y + 1) r := by
  simp only [advance, recAt, EdgeInfo.mk.injEq, true_and, and_true]
  push_cast
  ring

theorem kept_perm (recs : List (Int × EdgeInfo)) (hw : WellKeyed recs) (y : Int)
    (aet : List EdgeInfo) (h : aet.Perm (carriedAt recs y)) :
    ((aet ++ (recs.filter (fun r => r.1 = y)).map Prod.snd).filter (fun e => e.ymax != y)).Perm
      (activeAt recs y) := by
  rw [List.filter_append]
  have h1 : (aet.filter (fun e => e.ymax != y)).Perm
      ((recs.filter (fun r => decide (r.1 < y ∧ y < r.2.ymax))).map (recAt y)) := by
    refine (h.filter _).trans ?_
    unfold carriedAt
    rw [List.filter_map, List.filter_filter]
    apply List.Perm.of_eq
    congr 1
    apply List.filter_congr
    intro r _
    simp only [Function.comp, recAt, bne_iff_ne, ne_eq, Bool.and_eq_true, decide_eq_true_eq,
      decide_not, Bool.not_eq_true', decide_eq_false_iff_not, Bool.decide_and]
    by_cases ha : r.1 < y <;> by_cases hb : y ≤ r.2.ymax <;> by_cases hc : r.2.ymax = y <;>
      by_cases hd : y < r.2.ymax <;> simp [ha, hb, hc, hd] <;> omega
  have h2 : (((recs.filter (fun r => r.1 = y)).map Prod.snd).filter (fun e => e.ymax != y))
      = (recs.filter (fun r => decide (r.1 = y ∧ y < r.2.ymax))).map (recAt y) := by
    rw [List.filter_map, List.filter_filter]
    have hf : recs.filter (fun a => ((fun e : EdgeInfo => e.ymax != y) ∘ Prod.snd) a
        && decide (a.1 = y)) = recs.filter (fun r => decide (r.1 = y ∧ y < r.2.ymax)) := by
      apply List.filter_congr
      intro r hr
      have := hw r hr
      by_cases ha : r.1 = y <;> by_cases hc : r.2.ymax = y <;>
        by_cases hd : y < r.2.ymax <;> first | (simp [ha, hc, hd]; done) | omega
    rw [hf]
    apply List.map_congr_left
    intro r hr
    have hy : r.1 = y := by
      have := (List.mem_filter.mp hr).2
      simp only [decide_eq_true_eq] at this
      exact this.1
    rw [← hy, recAt_self]
  rw [h2]
  refine (List.Perm.append h1 (List.Perm.refl _)).trans ?_
  rw [← List.map_append]
  unfold activeAt
  apply List.Perm.map
  refine (filter_append_perm _ _ recs ?_).trans ?_
  · intro r _
    simp only [decide_eq_true_eq]
    omega
  · apply List.Perm.of_eq
    apply List.filter_congr
    intro r _
    by_cases ha : r.1 < y <;> by_cases hb : r.1 = y <;> by_cases hc : r.1 ≤ y <;>
      by_cases hd : y < r.2.ymax <;> simp [ha, hb, hc, hd] <;> omega

theorem advance_active (recs : List (Int × EdgeInfo)) (y : Int) :
    (activeAt recs y).map advance = carriedAt recs (y + 1) := by
  unfold activeAt carriedAt
  rw [List.map_map]
  have hf : recs.filter (fun r => decide (r.1 ≤ y ∧ y < r.2.ymax))
      = recs.filter (fun r => decide (r.1 < y + 1 ∧ y + 1 ≤ r.2.ymax)) := by
    apply List.filter_congr
    intro r _
    by_cases ha : r.1 ≤ y <;> by_cases hb : y < r.2.ymax <;>
      by_cases hc : r.1 < y + 1 <;> by_cases hd : y + 1 ≤ r.2.ymax <;>
      simp [ha, hb, hc, hd] <;> omega
  rw [hf]
  apply List.map_congr_left
  intro r _
  exact advance_recAt y r

theorem scanlineBody_spec (recs : List (Int × EdgeInfo)) (hw : WellKeyed recs) (y : Int)
    (s : ScanState) (h : s.activeEdgeTable.Perm (carriedAt recs y)) :
    (scanlineBody (insertAll recs []) y s).activeEdgeTable.Perm (carriedAt recs (y + 1))
      ∧ (scanlineBody (insertAll recs []) y s).filledScanlines
          = s.filledScanlines ++ spansAt recs y
      ∧ ∃ P, (scanlineBody (insertAll recs []) y s).pairing = s.pairing ++ [(y, P)]
          ∧ P.Perm (activeAt recs y) ∧ P.Sorted xLE := by
  rw [scanlineBody_eq]
  have hv : QMap.value (insertAll recs []) y
      = (recs.filter (fun r => r.1 = y)).map Prod.snd := by
    rw [value_insertAll recs [] (by simp [QMap.Ordered]) y]
    simp [QMap.value]
  rw [hv]
  have hk := kept_perm recs hw y s.activeEdgeTable h
  refine ⟨?_, ?_, _, rfl, (sortAET_perm _).trans hk, sortAET_sorted _⟩
  · rw [← advance_active]
    exact ((sortAET_perm _).trans hk).map advance
  · simp only [spansAt]
    rw [emitPairs_sort_perm y _ _ hk]

/-! ## The whole scanline loop -/

theorem scanlineLoop_spec (recs : List (Int × EdgeInfo)) (hw : WellKeyed recs) (n : Nat)
    (y : Int) (s : ScanState) (h : s.activeEdgeTable.Perm (carriedAt recs y)) :
    (scanlineLoop (insertAll recs []) n y s).filledScanlines
        = s.filledScanlines ++ spansFrom recs n y
      ∧ (scanlineLoop (insertAll recs []) n y s).pairing.map Prod.fst
          = s.pairing.map Prod.fst ++ scanlines n y
      ∧ ∀ entry ∈ (scanlineLoop (insertAll recs []) n y s).pairing,
          entry ∈ s.pairing ∨ (entry.2.Perm (activeAt recs entry.1) ∧ entry.2.Sorted xLE) := by
  induction n generalizing y s with
  | zero =>
    refine ⟨by simp [scanlineLoop, spansFrom], by simp [scanlineLoop, scanlines], ?_⟩
    intro entry he
    exact Or.inl he
  | succ n ih =>
    obtain ⟨hb1, hb2, P, hb3, hb4, hb5⟩ := scanlineBody_spec recs hw y s h
    obtain ⟨h1, h2, h3⟩ := ih (y + 1) (scanlineBody (insertAll recs []) y s) hb1
    simp only [scanlineLoop]
    refine ⟨?_, ?_, ?_⟩
    · rw [h1, hb2, spansFrom, List.append_assoc]
    · rw [h2, hb3, scanlines]
      simp
    · intro entry he
      rcases h3 entry he with h4 | h4
      · rw [hb3] at h4
        rcases List.mem_append.mp h4 with h5 | h5
        · exact Or.inl h5
        · rw [List.mem_singleton] at h5
          subst h5
          exact Or.inr ⟨hb4, hb5⟩
      · exact Or.inr h4

theorem edgeRecord_wellKeyed (p1 p2 : QPoint) (r : Int × EdgeInfo)
    (h : edgeRecord p1 p2 = some r) : r.1 < r.2.ymax := by
  unfold edgeRecord at h
  by_cases hy : p1.y = p2.y
  · rw [if_pos hy] at h
    exact absurd h (by simp)
  rw [if_neg hy] at h
  simp only [Option.some.injEq] at h
  subst h
  simp only
  rcases lt_or_gt_of_ne hy with hlt | hgt
  · rw [min_eq_left (le_of_lt hlt), max_eq_right (le_of_lt hlt)]
    exact hlt
  · rw [min_eq_right (le_of_lt hgt), max_eq_left (le_of_lt hgt)]
    exact hgt

theorem edgeRecords_wellKeyed (vertices : List QPoint) : WellKeyed (edgeRecords vertices) := by
  intro r hr
  unfold edgeRecords at hr
  obtain ⟨pq, _, hpq⟩ := List.mem_filterMap.mp hr
  exact edgeRecord_wellKeyed pq.1 pq.2 r hpq

theorem carriedAt_first (recs : List (Int × EdgeInfo)) (y : Int) (h : ∀ r ∈ recs, y ≤ r.1) :
    carriedAt recs y = [] := by
  unfold carriedAt
  rw [List.map_eq_nil_iff, List.filter_eq_nil_iff]
  intro r hr
  have := h r hr
  simp only [decide_eq_true_eq]
  omega

/-- The loop of `fillPolygon`, started on the empty AET at the first key, in
terms of the keyed records. -/
theorem scanPolygon_spec (vertices : List QPoint) (h : edgeRecords vertices ≠ []) :
    (scanPolygon vertices).filledScanlines
        = spansFrom (edgeRecords vertices)
            (globalYMax (insertAll (edgeRecords vertices) []) + 1
              - QMap.firstKey (insertAll (edgeRecords vertices) [])).toNat
            (QMap.firstKey (insertAll (edgeRecords vertices) []))
      ∧ (scanPolygon vertices).pairing.map Prod.fst
          = scanlines
              (globalYMax (insertAll (edgeRecords vertices) []) + 1
                - QMap.firstKey (insertAll (edgeRecords vertices) [])).toNat
              (QMap.firstKey (insertAll (edgeRecords vertices) []))
      ∧ ∀ entry ∈ (scanPolygon vertices).pairing,
          entry.2.Perm (activeAt (edgeRecords vertices) entry.1) ∧ entry.2.Sorted xLE := by
  have hne : (insertAll (edgeRecords vertices) []).isEmpty = false := by
    cases hm : insertAll (edgeRecords vertices) [] with
    | nil => exact absurd ((insertAll_eq_nil _).mp hm) h
    | cons kv rest => rfl
  have hinit : (⟨[], [], []⟩ : ScanState).activeEdgeTable.Perm
      (carriedAt (edgeRecords vertices) (QMap.firstKey (insertAll (edgeRecords vertices) []))) := by
    rw [carriedAt_first _ _ (firstKey_spec _ h).2]
  obtain ⟨h1, h2, h3⟩ := scanlineLoop_spec (edgeRecords vertices) (edgeRecords_wellKeyed vertices)
    (globalYMax (insertAll (edgeRecords vertices) []) + 1
      - QMap.firstKey (insertAll (edgeRecords vertices) [])).toNat
    (QMap.firstKey (insertAll (edgeRecords vertices) [])) ⟨[], [], []⟩ hinit
  unfold scanPolygon
  simp only [buildEdgeTable_eq, hne, Bool.false_eq_true, if_false]
  refine ⟨by simpa using h1, by simpa using h2, ?_⟩
  intro entry he
  rcases h3 entry he with h4 | h4
  · simp at h4
  · exact h4

theorem scanPolygon_nil (vertices : List QPoint) (h : edgeRecords vertices = []) :
    (scanPolygon vertices).filledScanlines = [] ∧ (scanPolygon vertices).pairing = [] := by
  unfold scanPolygon
  simp [buildEdgeTable_eq, h, insertAll]

/-! ## Parity of the crossings of a closed vertex chain -/

theorem edges_eq_zip (vertices : List QPoint) :
    edges vertices = vertices.zip (vertices.rotate 1) := by
  unfold edges
  apply List.ext_getElem
  · simp
  · intro i h1 h2
    simp only [List.length_map, List.length_range] at h1
    simp only [List.getElem_map, List.getElem_range, List.getElem_zip, edgeAt,
      List.getElem_rotate]
    rw [List.getD_eq_getElem _ _ h1, List.getD_eq_getElem _ _ (Nat.mod_lt _ (by omega))]

theorem chain_parity {α : Type} (f : α → Bool) (l : List α) (a z : α) :
    ((a :: l).zip (l ++ [z])).countP (fun p => f p.1 != f p.2) % 2
      = if f a = f z then 0 else 1 := by
  induction l generalizing a with
  | nil => cases hfa : f a <;> cases hfz : f z <;> simp [List.countP_cons, hfa, hfz]
  | cons b rest ih =>
    have := ih b
    simp only [List.cons_append, List.zip_cons_cons, List.countP_cons] at this ⊢
    cases hfa : f a <;> cases hfb : f b <;> cases hfz : f z <;>
      simp [hfa, hfb, hfz] at this ⊢ <;> omega

theorem cycle_parity {α : Type} (f : α → Bool) (l : List α) :
    Even ((l.zip (l.rotate 1)).countP (fun p => f p.1 != f p.2)) := by
  cases l with
  | nil => simp
  | cons a rest =>
    rw [List.rotate_cons_succ, List.rotate_zero, Nat.even_iff, chain_parity]
    simp

theorem edgeRecord_active_iff (p1 p2 : QPoint) (y : Int) :
    (match edgeRecord p1 p2 with
      | none => false
      | some r => decide (r.1 ≤ y ∧ y < r.2.ymax))
      = (decide (p1.y ≤ y) != decide (p2.y ≤ y)) := by
  unfold edgeRecord
  by_cases hy : p1.y = p2.y
  · simp [hy]
  · rw [if_neg hy]
    simp only
    rcases lt_or_gt_of_ne hy with hlt | hgt
    · rw [min_eq_left (le_of_lt hlt), max_eq_right (le_of_lt hlt)]
      by_cases h1 : p1.y ≤ y <;> by_cases h2 : p2.y ≤ y <;> by_cases h3 : y < p2.y <;>
        simp [h1, h2, h3] <;> omega
    · rw [min_eq_right (le_of_lt hgt), max_eq_left (le_of_lt hgt)]
      by_cases h1 : p1.y ≤ y <;> by_cases h2 : p2.y ≤ y <;> by_cases h3 : y < p1.y <;>
        simp [h1, h2, h3] <;> omega

theorem active_count (L : List (QPoint × QPoint)) (y : Int) :
    ((L.filterMap (fun pq => edgeRecord pq.1 pq.2)).filter
        (fun r => decide (r.1 ≤ y ∧ y < r.2.ymax))).length
      = L.countP (fun pq => decide (pq.1.y ≤ y) != decide (pq.2.y ≤ y)) := by
  induction L with
  | nil => rfl
  | cons pq rest ih =>
    have hpq := edgeRecord_active_iff pq.1 pq.2 y
    rw [List.filterMap_cons, List.countP_cons, ← ih]
    cases hrec : edgeRecord pq.1 pq.2 with
    | none =>
      rw [hrec] at hpq
      simp only at hpq
      simp [← hpq]
    | some r =>
      rw [hrec] at hpq
      simp only at hpq ⊢
      rw [List.filter_cons, ← hpq]
      by_cases hr : decide (r.1 ≤ y ∧ y < r.2.ymax) = true
      · simp [hr]
      · simp [hr]

theorem activeAt_even (vertices : List QPoint) (y : Int) :
    Even (activeAt (edgeRecords vertices) y).length := by
  unfold activeAt edgeRecords
  rw [List.length_map, active_count, edges_eq_zip]
  exact cycle_parity (fun p : QPoint => decide (p.y ≤ y)) vertices

theorem pairingTrace_spec (vertices : List QPoint) :
    ∀ entry ∈ pairingTrace vertices,
      entry.2.Perm (activeAt (edgeRecords vertices) entry.1) ∧ entry.2.Sorted xLE := by
  intro entry he
  unfold pairingTrace at he
  by_cases h : edgeRecords vertices = []
  · rw [(scanPolygon_nil vertices h).2] at he
    simp at he
  · exact (scanPolygon_spec vertices h).2.2 entry he

/-- The scanlines visited by the loop of `fillPolygon` are `firstKey`, `firstKey + 1`, ...,
through the global `y_max` inclusive. -/
theorem pairingTrace_scanlines (vertices : List QPoint) (h : edgeRecords vertices ≠ []) :
    (pairingTrace vertices).map Prod.fst
      = scanlines
          (globalYMax (buildEdgeTable vertices) + 1
            - QMap.firstKey (buildEdgeTable vertices)).toNat
          (QMap.firstKey (buildEdgeTable vertices)) := by
  rw [buildEdgeTable_eq]
  exact (scanPolygon_spec vertices h).2.1

theorem advanceBy_eq (k : Nat) (e : EdgeInfo) :
    advanceBy k e = ⟨e.ymax, e.x_current + (k : ℚ) * e.inv_slope, e.inv_slope⟩ := by
  unfold advanceBy
  induction k with
  | zero => simp
  | succ k ih =>
    rw [Function.iterate_succ_apply', ih]
    simp only [advance, EdgeInfo.mk.injEq, true_and, and_true]
    push_cast
    ring

theorem advanceBy_eq_recAt (y : Int) (r : Int × EdgeInfo) (h : r.1 ≤ y) :
    advanceBy (y - r.1).toNat r.2 = recAt y r := by
  rw [advanceBy_eq]
  unfold recAt
  have h2 : ((y - r.1).toNat : Int) = y - r.1 := Int.toNat_of_nonneg (by omega)
  have h3 : (((y - r.1).toNat : Int) : ℚ) = ((y - r.1 : Int) : ℚ) := by rw [h2]
  rw [← h3]
  simp only [Int.cast_natCast]

/-! ## Rounding and the pairing loop -/

theorem roundHalfAway_mono {a b : ℚ} (h : a ≤ b) : roundHalfAway a ≤ roundHalfAway b := by
  unfold roundHalfAway
  by_cases ha : 0 ≤ a
  · have hb : 0 ≤ b := le_trans ha h
    rw [if_pos ha, if_pos hb]
    exact Int.floor_le_floor (by linarith)
  · rw [if_neg ha]
    have h1 : 0 ≤ ⌊-a + 1 / 2⌋ := Int.floor_nonneg.mpr (by linarith)
    by_cases hb : 0 ≤ b
    · rw [if_pos hb]
      have h2 : 0 ≤ ⌊b + 1 / 2⌋ := Int.floor_nonneg.mpr (by linarith)
      omega
    · rw [if_neg hb]
      have h3 : ⌊-b + 1 / 2⌋ ≤ ⌊-a + 1 / 2⌋ := Int.floor_le_floor (by linarith)
      omega

theorem roundHalfAway_intCast (n : Int) : roundHalfAway (n : ℚ) = n := by
  unfold roundHalfAway
  by_cases hn : (0 : ℚ) ≤ (n : ℚ)
  · rw [if_pos hn, Int.floor_eq_iff]
    constructor <;> linarith
  · rw [if_neg hn]
    have : ⌊-(n : ℚ) + 1 / 2⌋ = -n := by
      rw [Int.floor_eq_iff]
      push_cast
      constructor <;> linarith
    rw [this, neg_neg]

theorem emitXs_mem (y : Int) (l : List ℚ) (hs : l.Sorted (· ≤ ·)) (s : QLine)
    (h : s ∈ emitXs y l) :
    s.y1 = y ∧ s.y2 = y ∧ s.x1 < s.x2
      ∧ (∀ c, (∀ x ∈ l, c ≤ x) → roundHalfAway c ≤ s.x1)
      ∧ (∀ c, (∀ x ∈ l, x ≤ c) → s.x2 ≤ roundHalfAway c) := by
  induction l using pair_induction with
  | h0 => simp [emitXs] at h
  | h1 a => simp [emitXs] at h
  | h2 a b rest ih =>
    have hrest : rest.Sorted (· ≤ ·) := (List.pairwise_cons.mp (List.pairwise_cons.mp hs).2).2
    simp only [emitXs, List.mem_append] at h
    rcases h with h | h
    · split_ifs at h with hlt
      · simp only [List.mem_singleton] at h
        subst h
        refine ⟨rfl, rfl, hlt, ?_, ?_⟩
        · intro c hc
          exact roundHalfAway_mono (hc a (List.mem_cons_self _ _))
        · intro c hc
          exact roundHalfAway_mono (hc b (List.mem_cons_of_mem _ (List.mem_cons_self _ _)))
      · simp at h
    · obtain ⟨h1, h2, h3, h4, h5⟩ := ih hrest h
      refine ⟨h1, h2, h3, ?_, ?_⟩
      · intro c hc
        exact h4 c (fun x hx => hc x (List.mem_cons_of_mem _ (List.mem_cons_of_mem _ hx)))
      · intro c hc
        exact h5 c (fun x hx => hc x (List.mem_cons_of_mem _ (List.mem_cons_of_mem _ hx)))

theorem emitXs_pairwise (y : Int) (l : List ℚ) (hs : l.Sorted (· ≤ ·)) :
    (emitXs y l).Pairwise (fun s t => s.x1 < t.x1) := by
  induction l using pair_induction with
  | h0 => simp [emitXs]
  | h1 a => simp [emitXs]
  | h2 a b rest ih =>
    have hb : ∀ x ∈ rest, b ≤ x := (List.pairwise_cons.mp (List.pairwise_cons.mp hs).2).1
    have hrest : rest.Sorted (· ≤ ·) := (List.pairwise_cons.mp (List.pairwise_cons.mp hs).2).2
    simp only [emitXs]
    rw [List.pairwise_append]
    refine ⟨?_, ih hrest, ?_⟩
    · split_ifs <;> simp
    · intro s hs1 t ht
      split_ifs at hs1 with hlt
      · simp only [List.mem_singleton] at hs1
        subst hs1
        have := (emitXs_mem y rest hrest t ht).2.2.2.1 b hb
        simp only
        omega
      · simp at hs1

theorem spansAt_eq (recs : List (Int × EdgeInfo)) (y : Int) :
    spansAt recs y = emitXs y ((sortAET (activeAt recs y)).map EdgeInfo.x_current) :=
  emitPairs_eq_emitXs y _

theorem spansFrom_y_ge (recs : List (Int × EdgeInfo)) (n : Nat) (y : Int) (s : QLine)
    (h : s ∈ spansFrom recs n y) : y ≤ s.y1 := by
  induction n generalizing y with
  | zero => simp [spansFrom] at h
  | succ n ih =>
    simp only [spansFrom, List.mem_append] at h
    rcases h with h | h
    · rw [spansAt_eq] at h
      have := (emitXs_mem y _ (sorted_xs _ (sortAET_sorted _)) s h).1
      omega
    · have := ih (y + 1) h
      omega

theorem spansFrom_pairwise (recs : List (Int × EdgeInfo)) (n : Nat) (y : Int) :
    (spansFrom recs n y).Pairwise spanBefore := by
  induction n generalizing y with
  | zero => simp [spansFrom]
  | succ n ih =>
    simp only [spansFrom]
    rw [List.pairwise_append]
    refine ⟨?_, ih (y + 1), ?_⟩
    · rw [spansAt_eq]
      have hsorted := sorted_xs _ (sortAET_sorted (activeAt recs y))
      refine (List.Pairwise.and_mem.mp (emitXs_pairwise y _ hsorted)).imp ?_
      rintro s t ⟨hs, ht, hlt⟩
      right
      exact ⟨by rw [(emitXs_mem y _ hsorted s hs).1, (emitXs_mem y _ hsorted t ht).1], hlt⟩
    · intro s hs t ht
      left
      rw [spansAt_eq] at hs
      have h1 := (emitXs_mem y _ (sorted_xs _ (sortAET_sorted _)) s hs).1
      have h2 := spansFrom_y_ge recs n (y + 1) t ht
      omega

theorem fill_ok (vertices : List QPoint) (h : 3 ≤ vertices.length) :
    fill vertices = Except.ok (scanPolygon vertices).filledScanlines := by
  have : ¬ vertices.length < 3 := by omega
  simp [fill, fillPolygon, this]

theorem pairingTrace_diamond :
    pairingTrace diamond
      = [(0, [⟨5, 5, 1⟩, ⟨5, 5, -1⟩]), (1, [⟨5, 4, -1⟩, ⟨5, 6, 1⟩]),
          (2, [⟨5, 3, -1⟩, ⟨5, 7, 1⟩]), (3, [⟨5, 2, -1⟩, ⟨5, 8, 1⟩]),
          (4, [⟨5, 1, -1⟩, ⟨5, 9, 1⟩]), (5, [⟨10, 0, 1⟩, ⟨10, 10, -1⟩]),
          (6, [⟨10, 1, 1⟩, ⟨10, 9, -1⟩]), (7, [⟨10, 2, 1⟩, ⟨10, 8, -1⟩]),
          (8, [⟨10, 3, 1⟩, ⟨10, 7, -1⟩]), (9, [⟨10, 4, 1⟩, ⟨10, 6, -1⟩]), (10, [])] := by
  simp [pairingTrace, diamond, scanPolygon, buildEdgeTable, List.range, List.range.loop,
    edgeStep, edgeAt, edgeRecord, QMap.appendAt]
  norm_num [globalYMax, QMap.firstKey, scanlineLoop, scanlineBody, QMap.contains, QMap.value,
    sortAET, xLE, advance, emitPairs]

/-! ## Edge coherence -/

theorem closedFormX_eq_crossingX (p1 p2 : QPoint) (y : Int) (h : p1.y ≠ p2.y) :
    closedFormX p1 p2 y = crossingX p1 p2 y := by
  unfold closedFormX crossingX
  rcases lt_or_gt_of_ne h with hlt | hgt
  · rw [if_pos hlt, min_eq_left (le_of_lt hlt)]
  · rw [if_neg (by omega), min_eq_right (le_of_lt hgt)]
    have hd : ((p2.y : ℚ) - (p1.y : ℚ)) ≠ 0 := by
      have : (p2.y : ℚ) < (p1.y : ℚ) := by exact_mod_cast hgt
      linarith
    field_simp
    ring

theorem interp_bounds (xa xb k d : ℚ) (hd : 0 < d) (hk0 : 0 ≤ k) (hkd : k ≤ d) :
    min xa xb ≤ xa + k * ((xb - xa) / d) ∧ xa + k * ((xb - xa) / d) ≤ max xa xb := by
  have ht0 : 0 ≤ k / d := div_nonneg hk0 (le_of_lt hd)
  have ht1 : k / d ≤ 1 := (div_le_one hd).mpr hkd
  have hx : xa + k * ((xb - xa) / d) = xa + (k / d) * (xb - xa) := by
    field_simp
  rw [hx]
  rcases le_total xa xb with hab | hab
  · rw [min_eq_left hab, max_eq_right hab]
    constructor <;> nlinarith
  · rw [min_eq_right hab, max_eq_left hab]
    constructor <;> nlinarith

theorem recAt_edge (p1 p2 : QPoint) (r : Int × EdgeInfo) (y : Int)
    (h : edgeRecord p1 p2 = some r) (h1 : r.1 ≤ y) (h2 : y ≤ r.2.ymax) :
    p1.y ≠ p2.y ∧ r.1 = min p1.y p2.y ∧ r.2.ymax = max p1.y p2.y
      ∧ r.2.inv_slope = ((p2.x : ℚ) - (p1.x : ℚ)) / ((p2.y : ℚ) - (p1.y : ℚ))
      ∧ (recAt y r).x_current = closedFormX p1 p2 y
      ∧ ((min p1.x p2.x : Int) : ℚ) ≤ (recAt y r).x_current
      ∧ (recAt y r).x_current ≤ ((max p1.x p2.x : Int) : ℚ) := by
  unfold edgeRecord at h
  by_cases hy : p1.y = p2.y
  · rw [if_pos hy] at h
    exact absurd h (by simp)
  rw [if_neg hy] at h
  simp only [Option.some.injEq] at h
  subst h
  simp only at h1 h2
  refine ⟨hy, rfl, rfl, by push_cast; rfl, ?_, ?_⟩
  · simp only [recAt, closedFormX]
    push_cast
    rfl
  · simp only [recAt]
    rcases lt_or_gt_of_ne hy with hlt | hgt
    · rw [min_eq_left (le_of_lt hlt)] at h1 ⊢
      rw [max_eq_right (le_of_lt hlt)] at h2
      rw [if_pos hlt]
      push_cast
      have hd : (0 : ℚ) < (p2.y : ℚ) - (p1.y : ℚ) := by
        have : (p1.y : ℚ) < (p2.y : ℚ) := by exact_mod_cast hlt
        linarith
      have hk0 : (0 : ℚ) ≤ (y : ℚ) - (p1.y : ℚ) := by
        have : (p1.y : ℚ) ≤ (y : ℚ) := by exact_mod_cast h1
        linarith
      have hkd : (y : ℚ) - (p1.y : ℚ) ≤ (p2.y : ℚ) - (p1.y : ℚ) := by
        have : (y : ℚ) ≤ (p2.y : ℚ) := by exact_mod_cast h2
        linarith
      exact interp_bounds _ _ _ _ hd hk0 hkd
    · rw [min_eq_right (le_of_lt hgt)] at h1 ⊢
      rw [max_eq_left (le_of_lt hgt)] at h2
      rw [if_neg (by omega)]
      push_cast
      have hd : (0 : ℚ) < (p1.y : ℚ) - (p2.y : ℚ) := by
        have : (p2.y : ℚ) < (p1.y : ℚ) := by exact_mod_cast hgt
        linarith
      have hk0 : (0 : ℚ) ≤ (y : ℚ) - (p2.y : ℚ) := by
        have : (p2.y : ℚ) ≤ (y : ℚ) := by exact_mod_cast h1
        linarith
      have hkd : (y : ℚ) - (p2.y : ℚ) ≤ (p1.y : ℚ) - (p2.y : ℚ) := by
        have : (y : ℚ) ≤ (p1.y : ℚ) := by exact_mod_cast h2
        linarith
      have hs : ((p2.x : ℚ) - (p1.x : ℚ)) / ((p2.y : ℚ) - (p1.y : ℚ))
          = ((p1.x : ℚ) - (p2.x : ℚ)) / ((p1.y : ℚ) - (p2.y : ℚ)) := by
        rw [← neg_sub (p1.x : ℚ) (p2.x : ℚ), ← neg_sub (p1.y : ℚ) (p2.y : ℚ), neg_div_neg_eq]
      rw [hs, min_comm, max_comm]
      exact interp_bounds _ _ _ _ hd hk0 hkd

theorem mem_edges (vertices : List QPoint) (pq : QPoint × QPoint) (h : pq ∈ edges vertices) :
    pq.1 ∈ vertices ∧ pq.2 ∈ vertices := by
  rw [edges_eq_zip] at h
  obtain ⟨p, q⟩ := pq
  have := List.of_mem_zip h
  exact ⟨this.1, List.mem_rotate.mp this.2⟩

theorem mem_activeAt_edge (vertices : List QPoint) (y : Int) (e : EdgeInfo)
    (h : e ∈ activeAt (edgeRecords vertices) y) :
    ∃ pq ∈ edges vertices, pq.1.y ≠ pq.2.y
      ∧ min pq.1.y pq.2.y ≤ y ∧ y < max pq.1.y pq.2.y
      ∧ e.ymax = max pq.1.y pq.2.y
      ∧ e.inv_slope = ((pq.2.x : ℚ) - (pq.1.x : ℚ)) / ((pq.2.y : ℚ) - (pq.1.y : ℚ))
      ∧ e.x_current = closedFormX pq.1 pq.2 y
      ∧ ((min pq.1.x pq.2.x : Int) : ℚ) ≤ e.x_current
      ∧ e.x_current ≤ ((max pq.1.x pq.2.x : Int) : ℚ) := by
  unfold activeAt at h
  obtain ⟨r, hr, rfl⟩ := List.mem_map.mp h
  obtain ⟨hrec, hact⟩ := List.mem_filter.mp hr
  simp only [decide_eq_true_eq] at hact
  unfold edgeRecords at hrec
  obtain ⟨pq, hpq, hsome⟩ := List.mem_filterMap.mp hrec
  obtain ⟨h1, h2, h3, h4, h5, h6, h7⟩ :=
    recAt_edge pq.1 pq.2 r y hsome hact.1 (le_of_lt hact.2)
  refine ⟨pq, hpq, h1, ?_, ?_, ?_, ?_, h5, h6, h7⟩
  · rw [← h2]
    exact hact.1
  · rw [← h3]
    exact hact.2
  · simpa [recAt] using h3
  · simpa [recAt] using h4

theorem emitXs_ends (y : Int) (l : List ℚ) (s : QLine) (h : s ∈ emitXs y l) :
    (∃ a ∈ l, s.x1 = roundHalfAway a) ∧ (∃ b ∈ l, s.x2 = roundHalfAway b) := by
  induction l using pair_induction with
  | h0 => simp [emitXs] at h
  | h1 a => simp [emitXs] at h
  | h2 a b rest ih =>
    simp only [emitXs, List.mem_append] at h
    rcases h with h | h
    · split_ifs at h with hlt
      · simp only [List.mem_singleton] at h
        subst h
        exact ⟨⟨a, List.mem_cons_self _ _, rfl⟩,
          ⟨b, List.mem_cons_of_mem _ (List.mem_cons_self _ _), rfl⟩⟩
      · simp at h
    · obtain ⟨⟨a', ha', h1⟩, ⟨b', hb', h2⟩⟩ := ih h
      exact ⟨⟨a', List.mem_cons_of_mem _ (List.mem_cons_of_mem _ ha'), h1⟩,
        ⟨b', List.mem_cons_of_mem _ (List.mem_cons_of_mem _ hb'), h2⟩⟩

theorem mem_spansFrom (recs : List (Int × EdgeInfo)) (n : Nat) (y : Int) (s : QLine)
    (h : s ∈ spansFrom recs n y) : ∃ y', s ∈ spansAt recs y' := by
  induction n generalizing y with
  | zero => simp [spansFrom] at h
  | succ n ih =>
    simp only [spansFrom, List.mem_append] at h
    rcases h with h | h
    · exact ⟨y, h⟩
    · exact ih (y + 1) h

theorem mem_spansAt_ends (recs : List (Int × EdgeInfo)) (y : Int) (s : QLine)
    (h : s ∈ spansAt recs y) :
    (∃ e ∈ activeAt recs y, s.x1 = roundHalfAway e.x_current)
      ∧ (∃ e ∈ activeAt recs y, s.x2 = roundHalfAway e.x_current) := by
  rw [spansAt_eq] at h
  obtain ⟨⟨a, ha, h1⟩, ⟨b, hb, h2⟩⟩ := emitXs_ends y _ s h
  obtain ⟨ea, hea, rfl⟩ := List.mem_map.mp ha
  obtain ⟨eb, heb, rfl⟩ := List.mem_map.mp hb
  exact ⟨⟨ea, (sortAET_perm _).subset hea, h1⟩, ⟨eb, (sortAET_perm _).subset heb, h2⟩⟩

theorem mem_scanPolygon_spans (vertices : List QPoint) (s : QLine)
    (h : s ∈ (scanPolygon vertices).filledScanlines) :
    ∃ y, s ∈ spansAt (edgeRecords vertices) y := by
  by_cases hnil : edgeRecords vertices = []
  · rw [(scanPolygon_nil vertices hnil).1] at h
    simp at h
  · rw [(scanPolygon_spec vertices hnil).1] at h
    exact mem_spansFrom _ _ _ s h

/-! ## The scan range -/

theorem activeAt_dead (recs : List (Int × EdgeInfo)) (y : Int)
    (h : ∀ r ∈ recs, r.2.ymax ≤ y) : activeAt recs y = [] := by
  unfold activeAt
  rw [List.map_eq_nil_iff, List.filter_eq_nil_iff]
  intro r hr
  have := h r hr
  simp only [decide_eq_true_eq]
  omega

theorem spansFrom_dead (recs : List (Int × EdgeInfo)) (n : Nat) (y : Int)
    (h : ∀ r ∈ recs, r.2.ymax ≤ y) : spansFrom recs n y = [] := by
  induction n generalizing y with
  | zero => rfl
  | succ n ih =>
    simp only [spansFrom, spansAt, activeAt_dead recs y h]
    rw [ih (y + 1) (fun r hr => by have := h r hr; omega)]
    rfl

theorem spansFrom_add (recs : List (Int × EdgeInfo)) (n k : Nat) (y : Int) :
    spansFrom recs (n + k) y = spansFrom recs n y ++ spansFrom recs k (y + n) := by
  induction n generalizing y with
  | zero => simp [spansFrom]
  | succ n ih =>
    rw [Nat.succ_add]
    simp only [spansFrom, List.append_assoc]
    rw [ih (y + 1)]
    congr 3
    push_cast
    ring

theorem spansFrom_truncate (recs : List (Int × EdgeInfo)) (n m : Nat) (y : Int)
    (hn : ∀ r ∈ recs, r.2.ymax ≤ y + n) (hm : ∀ r ∈ recs, r.2.ymax ≤ y + m) :
    spansFrom recs n y = spansFrom recs m y := by
  rcases le_total n m with hle | hle
  · obtain ⟨k, rfl⟩ := Nat.exists_eq_add_of_le hle
    rw [spansFrom_add, spansFrom_dead recs k (y + n) hn, List.append_nil]
  · obtain ⟨k, rfl⟩ := Nat.exists_eq_add_of_le hle
    rw [spansFrom_add, spansFrom_dead recs k (y + m) hm, List.append_nil]

/-- The spans stored by `fillPolygon` are those of the scanlines from the first key
up to any bound at which all records have expired. -/
theorem scanPolygon_spans (vertices : List QPoint) (h : edgeRecords vertices ≠ []) (n : Nat)
    (hn : ∀ r ∈ edgeRecords vertices,
      r.2.ymax ≤ QMap.firstKey (insertAll (edgeRecords vertices) []) + n) :
    (scanPolygon vertices).filledScanlines
      = spansFrom (edgeRecords vertices) n
          (QMap.firstKey (insertAll (edgeRecords vertices) [])) := by
  rw [(scanPolygon_spec vertices h).1]
  apply spansFrom_truncate _ _ _ _ _ hn
  intro r hr
  have := (globalYMax_spec (edgeRecords vertices)).2.1 r hr
  omega

theorem edgeRecords_rectangle (x0 y0 x1 y1 : Int) (hy : y0 < y1) :
    edgeRecords (rectangle x0 y0 x1 y1)
      = [(y0, ⟨y1, (x1 : ℚ), 0⟩), (y0, ⟨y1, (x0 : ℚ), 0⟩)] := by
  have h1 : ¬ y0 = y1 := by omega
  have h2 : ¬ y1 = y0 := by omega
  have h3 : ¬ y1 < y0 := by omega
  simp [edgeRecords, edges, rectangle, List.range, List.range.loop, edgeAt, edgeRecord,
    h1, h2, h3, hy, le_of_lt hy]

theorem spansAt_rectangle (x0 y0 x1 y1 : Int) (hx : x0 < x1) (y : Int)
    (h1 : y0 ≤ y) (h2 : y < y1) :
    spansAt [(y0, ⟨y1, (x1 : ℚ), 0⟩), (y0, ⟨y1, (x0 : ℚ), 0⟩)] y = [⟨x0, y, x1, y⟩] := by
  have hq : ¬ (x1 : ℚ) ≤ (x0 : ℚ) := by
    have : (x0 : ℚ) < (x1 : ℚ) := by exact_mod_cast hx
    linarith
  simp [spansAt, activeAt, recAt, h1, h2, sortAET, xLE, hq, emitPairs,
    roundHalfAway_intCast, hx]

theorem spansFrom_rectangle (x0 y0 x1 y1 : Int) (hx : x0 < x1) (n : Nat) (y : Int)
    (h1 : y0 ≤ y) (h2 : y + n ≤ y1) :
    spansFrom [(y0, ⟨y1, (x1 : ℚ), 0⟩), (y0, ⟨y1, (x0 : ℚ), 0⟩)] n y
      = (scanlines n y).map (fun y => (⟨x0, y, x1, y⟩ : QLine)) := by
  induction n generalizing y with
  | zero => rfl
  | succ n ih =>
    simp only [spansFrom, scanlines, List.map_cons]
    push_cast at h2
    rw [spansAt_rectangle x0 y0 x1 y1 hx y h1 (by omega), ih (y + 1) (by omega) (by omega)]
    rfl

/-! ## Independence of the order of the edges -/

theorem activeAt_perm (recs₁ recs₂ : List (Int × EdgeInfo)) (h : recs₁.Perm recs₂) (y : Int) :
    (activeAt recs₁ y).Perm (activeAt recs₂ y) :=
  (h.filter _).map _

theorem spansFrom_perm (recs₁ recs₂ : List (Int × EdgeInfo)) (h : recs₁.Perm recs₂) (n : Nat)
    (y : Int) : spansFrom recs₁ n y = spansFrom recs₂ n y := by
  induction n generalizing y with
  | zero => rfl
  | succ n ih =>
    simp only [spansFrom, spansAt]
    rw [ih (y + 1), emitPairs_sort_perm y _ _ (activeAt_perm recs₁ recs₂ h y)]

theorem firstKey_perm (recs₁ recs₂ : List (Int × EdgeInfo)) (h : recs₁.Perm recs₂)
    (hne : recs₁ ≠ []) :
    QMap.firstKey (insertAll recs₁ []) = QMap.firstKey (insertAll recs₂ []) := by
  have hne2 : recs₂ ≠ [] := fun h2 => hne (by rw [h2] at h; exact h.eq_nil)
  obtain ⟨⟨r1, hr1, hk1⟩, hle1⟩ := firstKey_spec recs₁ hne
  obtain ⟨⟨r2, hr2, hk2⟩, hle2⟩ := firstKey_spec recs₂ hne2
  have h1 := hle1 r2 (h.symm.subset hr2)
  have h2 := hle2 r1 (h.subset hr1)
  omega

theorem scanPolygon_perm (v w : List QPoint) (h : (edgeRecords v).Perm (edgeRecords w)) :
    (scanPolygon v).filledScanlines = (scanPolygon w).filledScanlines := by
  by_cases hv : edgeRecords v = []
  · have hw : edgeRecords w = [] := by
      rw [hv] at h
      exact h.symm.eq_nil
    rw [(scanPolygon_nil v hv).1, (scanPolygon_nil w hw).1]
  · have hw : edgeRecords w ≠ [] := fun hw => hv (by rw [hw] at h; exact h.eq_nil)
    have hfk := firstKey_perm _ _ h hv
    have hbound : ∀ r ∈ edgeRecords v, r.2.ymax
        ≤ QMap.firstKey (insertAll (edgeRecords v) [])
          + ((globalYMax (insertAll (edgeRecords v) []) + 1
              - QMap.firstKey (insertAll (edgeRecords v) [])).toNat : Nat) := by
      intro r hr
      have := (globalYMax_spec (edgeRecords v)).2.1 r hr
      omega
    rw [scanPolygon_spans v hv _ hbound, scanPolygon_spans w hw _
      (fun r hr => by rw [← hfk]; exact hbound r (h.symm.subset hr)), ← hfk]
    exact spansFrom_perm _ _ h _ _

theorem edges_rotate (vertices : List QPoint) (k : Nat) :
    edges (vertices.rotate k) = (edges vertices).rotate k := by
  rw [edges_eq_zip, edges_eq_zip, List.zip_eq_zipWith, List.zip_eq_zipWith,
    List.zipWith_rotate_distrib _ _ _ _ (by simp), List.rotate_rotate, List.rotate_rotate,
    Nat.add_comm]

theorem edgeRecords_rotate (vertices : List QPoint) (k : Nat) :
    (edgeRecords (vertices.rotate k)).Perm (edgeRecords vertices) := by
  unfold edgeRecords
  rw [edges_rotate]
  exact (List.rotate_perm _ _).filterMap _

theorem edges_reverse (vertices : List QPoint) :
    (edges vertices.reverse).Perm ((edges vertices).map Prod.swap) := by
  rw [edges_eq_zip, edges_eq_zip, List.zip_swap, List.rotate_reverse, List.zip_eq_zipWith,
    ← List.reverse_zipWith (by simp)]
  refine (List.reverse_perm _).trans ?_
  have hrot : vertices
      = (vertices.rotate 1).rotate (vertices.length - 1 % vertices.length) := by
    rw [List.rotate_rotate]
    rcases Nat.lt_or_ge 1 vertices.length with hl | hl
    · rw [Nat.mod_eq_of_lt hl, Nat.add_sub_cancel' (le_of_lt hl), List.rotate_length]
    · match vertices, hl with
      | [], _ => rfl
      | [a], _ => simp
      | _ :: _ :: _, hl => simp at hl
  have hz : List.zipWith Prod.mk vertices
        (vertices.rotate (vertices.length - 1 % vertices.length))
      = (List.zipWith Prod.mk (vertices.rotate 1) vertices).rotate
          (vertices.length - 1 % vertices.length) := by
    rw [List.zipWith_rotate_distrib _ _ _ _ (by simp), ← hrot]
  rw [hz, ← List.zip_eq_zipWith]
  exact List.rotate_perm _ _

theorem edgeRecord_swap (p1 p2 : QPoint) : edgeRecord p2 p1 = edgeRecord p1 p2 := by
  unfold edgeRecord
  by_cases hy : p1.y = p2.y
  · rw [if_pos hy, if_pos hy.symm]
  · rw [if_neg hy, if_neg (fun h => hy h.symm)]
    have hs : (((p1.x - p2.x : Int) : ℚ)) / ((p1.y - p2.y : Int) : ℚ)
        = (((p2.x - p1.x : Int) : ℚ)) / ((p2.y - p1.y : Int) : ℚ) := by
      push_cast
      rw [← neg_sub (p2.x : ℚ) (p1.x : ℚ), ← neg_sub (p2.y : ℚ) (p1.y : ℚ), neg_div_neg_eq]
    simp only [hs, min_comm p2.y p1.y, max_comm p2.y p1.y]
    rcases lt_or_gt_of_ne hy with hlt | hgt
    · have hn : ¬ p2.y < p1.y := by omega
      rw [if_pos hlt, if_neg hn]
    · have hn : ¬ p1.y < p2.y := by omega
      have hp : p2.y < p1.y := hgt
      rw [if_pos hp, if_neg hn]

theorem edgeRecords_reverse (vertices : List QPoint) :
    (edgeRecords vertices.reverse).Perm (edgeRecords vertices) := by
  unfold edgeRecords
  refine ((edges_reverse vertices).filterMap _).trans ?_
  rw [List.filterMap_map]
  apply List.Perm.of_eq
  apply List.filterMap_congr
  intro pq _
  exact edgeRecord_swap pq.1 pq.2

/-! ## Translation -/

theorem edgeRecord_translate (dx dy : Int) (p1 p2 : QPoint) :
    edgeRecord (translate dx dy p1) (translate dx dy p2)
      = (edgeRecord p1 p2).map (translateKeyed dx dy) := by
  unfold edgeRecord translate
  by_cases hy : p1.y = p2.y
  · simp [hy]
  · have hy' : ¬ p1.y + dy = p2.y + dy := by omega
    simp only [hy, hy', if_false, Option.map_some', translateKeyed, translateRecord,
      Option.some.injEq, Prod.mk.injEq, EdgeInfo.mk.injEq]
    refine ⟨(min_add_add_right _ _ _), (max_add_add_right _ _ _), ?_, ?_⟩
    · by_cases hlt : p1.y < p2.y
      · have hlt' : p1.y + dy < p2.y + dy := by omega
        simp [hlt, hlt']
      · have hlt' : ¬ p1.y + dy < p2.y + dy := by omega
        simp [hlt, hlt']
    · congr 2 <;> ring

theorem edges_map (f : QPoint → QPoint) (vertices : List QPoint) :
    edges (vertices.map f) = (edges vertices).map (Prod.map f f) := by
  rw [edges_eq_zip, edges_eq_zip, ← List.map_rotate, List.zip_map]

theorem edgeRecords_translate (dx dy : Int) (vertices : List QPoint) :
    edgeRecords (vertices.map (translate dx dy))
      = (edgeRecords vertices).map (translateKeyed dx dy) := by
  unfold edgeRecords
  rw [edges_map, List.filterMap_map, List.map_filterMap]
  apply List.filterMap_congr
  intro pq _
  simp only [Function.comp, Prod.map]
  rw [edgeRecord_translate]

theorem activeAt_translate (dx dy : Int) (recs : List (Int × EdgeInfo)) (y : Int) :
    activeAt (recs.map (translateKeyed dx dy)) (y + dy)
      = (activeAt recs y).map (translateRecord dx dy) := by
  unfold activeAt
  rw [List.filter_map, List.map_map, List.map_map]
  have hf : recs.filter ((fun r : Int × EdgeInfo => decide (r.1 ≤ y + dy ∧ y + dy < r.2.ymax))
      ∘ translateKeyed dx dy) = recs.filter (fun r => decide (r.1 ≤ y ∧ y < r.2.ymax)) := by
    apply List.filter_congr
    intro r _
    simp only [Function.comp, translateKeyed, translateRecord, decide_eq_decide]
    constructor <;> intro h <;> constructor <;> omega
  rw [hf]
  apply List.map_congr_left
  intro r _
  simp only [Function.comp, recAt, translateKeyed, translateRecord, EdgeInfo.mk.injEq,
    true_and, and_true]
  push_cast
  ring

theorem sorted_xs_translate (dx dy : Int) (l : List EdgeInfo) :
    (sortAET (l.map (translateRecord dx dy))).map EdgeInfo.x_current
      = ((sortAET l).map EdgeInfo.x_current).map (fun x => x + (dx : ℚ)) := by
  apply List.eq_of_perm_of_sorted (r := (· ≤ ·))
  · refine ((sortAET_perm _).map _).trans ?_
    rw [List.map_map, List.map_map]
    exact (sortAET_perm l).symm.map _
  · exact sorted_xs _ (sortAET_sorted _)
  · have := sorted_xs _ (sortAET_sorted l)
    unfold List.Sorted at this ⊢
    rw [List.pairwise_map]
    exact this.imp (fun h => by linarith)

theorem emitXs_translate (dx dy : Int) (y : Int) (l : List ℚ)
    (h : ∀ x ∈ l, roundHalfAway (x + (dx : ℚ)) = roundHalfAway x + dx) :
    emitXs (y + dy) (l.map (fun x => x + (dx : ℚ))) = (emitXs y l).map (translateSpan dx dy) := by
  induction l using pair_induction with
  | h0 => rfl
  | h1 a => rfl
  | h2 a b rest ih =>
    have ha := h a (List.mem_cons_self _ _)
    have hb := h b (List.mem_cons_of_mem _ (List.mem_cons_self _ _))
    have hrest := ih (fun x hx => h x (List.mem_cons_of_mem _ (List.mem_cons_of_mem _ hx)))
    simp only [List.map_cons, emitXs, List.map_append, hrest, ha, hb]
    by_cases hlt : roundHalfAway a < roundHalfAway b
    · have hlt' : roundHalfAway a + dx < roundHalfAway b + dx := by omega
      simp [hlt, hlt', translateSpan]
    · have hlt' : ¬ roundHalfAway a + dx < roundHalfAway b + dx := by omega
      simp [hlt, hlt']

theorem spansFrom_translate (dx dy : Int) (recs : List (Int × EdgeInfo))
    (h : ∀ y, ∀ e ∈ activeAt recs y,
      roundHalfAway (e.x_current + (dx : ℚ)) = roundHalfAway e.x_current + dx)
    (n : Nat) (y : Int) :
    spansFrom (recs.map (translateKeyed dx dy)) n (y + dy)
      = (spansFrom recs n y).map (translateSpan dx dy) := by
  induction n generalizing y with
  | zero => rfl
  | succ n ih =>
    simp only [spansFrom, List.map_append]
    have hy : y + dy + 1 = y + 1 + dy := by ring
    rw [hy, ih (y + 1), spansAt_eq, spansAt_eq, activeAt_translate, sorted_xs_translate,
      emitXs_translate]
    intro x hx
    obtain ⟨e, he, rfl⟩ := List.mem_map.mp hx
    exact h y e ((sortAET_perm _).subset he)

theorem firstKey_translate (dx dy : Int) (recs : List (Int × EdgeInfo)) (hne : recs ≠ []) :
    QMap.firstKey (insertAll (recs.map (translateKeyed dx dy)) [])
      = QMap.firstKey (insertAll recs []) + dy := by
  have hne' : recs.map (translateKeyed dx dy) ≠ [] := by simpa using hne
  obtain ⟨⟨r1, hr1, hk1⟩, hle1⟩ := firstKey_spec recs hne
  obtain ⟨⟨r2, hr2, hk2⟩, hle2⟩ := firstKey_spec _ hne'
  obtain ⟨r, hr, rfl⟩ := List.mem_map.mp hr2
  have h1 := hle1 r hr
  have h2 := hle2 _ (List.mem_map_of_mem (translateKeyed dx dy) hr1)
  simp only [translateKeyed] at hk2 h2
  omega

theorem scanPolygon_translate (dx dy : Int) (vertices : List QPoint)
    (h : ∀ y, ∀ e ∈ activeAt (edgeRecords vertices) y,
      roundHalfAway (e.x_current + (dx : ℚ)) = roundHalfAway e.x_current + dx) :
    (scanPolygon (vertices.map (translate dx dy))).filledScanlines
      = (scanPolygon vertices).filledScanlines.map (translateSpan dx dy) := by
  by_cases hv : edgeRecords vertices = []
  · have hv' : edgeRecords (vertices.map (translate dx dy)) = [] := by
      rw [edgeRecords_translate, hv]
      rfl
    rw [(scanPolygon_nil _ hv).1, (scanPolygon_nil _ hv').1]
    rfl
  · have hv' : edgeRecords (vertices.map (translate dx dy)) ≠ [] := by
      rw [edgeRecords_translate]
      simpa using hv
    have hbound : ∀ r ∈ edgeRecords vertices, r.2.ymax
        ≤ QMap.firstKey (insertAll (edgeRecords vertices) [])
          + ((globalYMax (insertAll (edgeRecords vertices) []) + 1
              - QMap.firstKey (insertAll (edgeRecords vertices) [])).toNat : Nat) := by
      intro r hr
      have := (globalYMax_spec (edgeRecords vertices)).2.1 r hr
      omega
    have hbound' : ∀ r ∈ edgeRecords (vertices.map (translate dx dy)), r.2.ymax
        ≤ QMap.firstKey (insertAll (edgeRecords (vertices.map (translate dx dy))) [])
          + ((globalYMax (insertAll (edgeRecords vertices) []) + 1
              - QMap.firstKey (insertAll (edgeRecords vertices) [])).toNat : Nat) := by
      rw [edgeRecords_translate, firstKey_translate dx dy _ hv]
      intro r hr
      obtain ⟨r0, hr0, rfl⟩ := List.mem_map.mp hr
      have := hbound r0 hr0
      simp only [translateKeyed, translateRecord]
      omega
    rw [scanPolygon_spans _ hv _ hbound, scanPolygon_spans _ hv' _ hbound',
      edgeRecords_translate, firstKey_translate dx dy _ hv]
    exact spansFrom_translate dx dy _ h _ _

theorem fill_halfCrossing :
    fill halfCrossing = Except.ok [⟨0, 0, 4, 0⟩, ⟨1, 1, 3, 1⟩] := by
  rw [fill_ok _ (by decide)]
  simp [halfCrossing, scanPolygon, buildEdgeTable, List.range, List.range.loop,
    edgeStep, edgeAt, edgeRecord, QMap.appendAt]
  norm_num [globalYMax, QMap.firstKey, scanlineLoop, scanlineBody, QMap.contains, QMap.value,
    sortAET, xLE, advance, emitPairs, roundHalfAway]

theorem fill_halfCrossing_left :
    fill (halfCrossing.map (translate (-1) 0))
      = Except.ok [⟨-1, 0, 3, 0⟩, ⟨-1, 1, 2, 1⟩] := by
  rw [fill_ok _ (by decide)]
  simp [halfCrossing, translate, scanPolygon, buildEdgeTable, List.range, List.range.loop,
    edgeStep, edgeAt, edgeRecord, QMap.appendAt]
  norm_num [globalYMax, QMap.firstKey, scanlineLoop, scanlineBody, QMap.contains, QMap.value,
    sortAET, xLE, advance, emitPairs, roundHalfAway]

/-! ## Settled claims -/

/-- C1: `fillPolygon` fails with `InsufficientVertices` exactly when the canvas holds
fewer than 3 vertices; in that case the whole state (stored span list, vertex list,
`polygonDrawn`) is left as it was and `fill` returns the error, no spans; with at
least 3 vertices the call succeeds and `fill` returns a span list. -/
theorem fillPolygon_insufficientVertices (c : DrawingCanvas) :
    ((fillPolygon c).1 = some FillError.InsufficientVertices ↔ c.vertices.length < 3)
      ∧ (c.vertices.length < 3 →
          (fillPolygon c).2 = c
            ∧ fill c.vertices = Except.error FillError.InsufficientVertices)
      ∧ (3 ≤ c.vertices.length →
          (fillPolygon c).1 = none ∧ ∃ spans, fill c.vertices = Except.ok spans) := by
  by_cases h : c.vertices.length < 3
  · refine ⟨?_, ?_, ?_⟩
    · simp [fillPolygon, h]
    · intro _
      simp [fillPolygon, fill, h]
    · intro h3
      omega
  · refine ⟨?_, ?_, ?_⟩
    · simp [fillPolygon, h]
    · intro h3
      exact absurd h3 h
    · intro _
      simp [fillPolygon, fill, h]

theorem fillPolygon_insufficientVertices_witness :
    ([⟨0, 0⟩, ⟨1, 1⟩] : List QPoint).length < 3
      ∧ (fillPolygon ⟨[⟨0, 0⟩, ⟨1, 1⟩], [⟨0, 0, 1, 0⟩], false⟩).2
          = ⟨[⟨0, 0⟩, ⟨1, 1⟩], [⟨0, 0, 1, 0⟩], false⟩
      ∧ fill [⟨0, 0⟩, ⟨1, 1⟩] = Except.error FillError.InsufficientVertices :=
  ⟨by decide,
    (fillPolygon_insufficientVertices ⟨[⟨0, 0⟩, ⟨1, 1⟩], [⟨0, 0, 1, 0⟩], false⟩).2.1
      (by decide)⟩

/-- C5 (parity): for every vertex list of at least 3 vertices and every scanline
visited by the loop of `fillPolygon`, the number of records in the AET at the pairing
step is even. -/
theorem pairing_count_even (vertices : List QPoint) (_hlen : 3 ≤ vertices.length)
    (entry : Int × List EdgeInfo) (he : entry ∈ pairingTrace vertices) :
    Even entry.2.length := by
  rw [((pairingTrace_spec vertices entry he).1).length_eq]
  exact activeAt_even vertices entry.1

theorem pairing_count_even_witness :
    3 ≤ diamond.length
      ∧ ((0, [⟨5, 5, 1⟩, ⟨5, 5, -1⟩]) : Int × List EdgeInfo) ∈ pairingTrace diamond
      ∧ Even ([⟨5, 5, 1⟩, ⟨5, 5, -1⟩] : List EdgeInfo).length :=
  ⟨by decide, by rw [pairingTrace_diamond]; exact List.mem_cons_self _ _,
    pairing_count_even diamond (by decide) (0, [⟨5, 5, 1⟩, ⟨5, 5, -1⟩])
      (by rw [pairingTrace_diamond]; exact List.mem_cons_self _ _)⟩

/-- C8 (active interval, edge retirement): for every vertex list of at least 3 vertices
and every scanline `y` visited by the loop, the AET at the pairing step is, as a
multiset, the records of the non-horizontal edges with `y_min ≤ y < y_max`, each
advanced `y - y_min` times; in particular every record in it has `y < ymax`. -/
theorem pairing_records_active (vertices : List QPoint) (_hlen : 3 ≤ vertices.length)
    (entry : Int × List EdgeInfo) (he : entry ∈ pairingTrace vertices) :
    (entry.2 : Multiset EdgeInfo)
        = (((edgeRecords vertices).filter
              (fun r => decide (r.1 ≤ entry.1 ∧ entry.1 < r.2.ymax))).map
            (fun r => advanceBy (entry.1 - r.1).toNat r.2) : List EdgeInfo)
      ∧ ∀ e ∈ entry.2, entry.1 < e.ymax := by
  have hp := (pairingTrace_spec vertices entry he).1
  have hmap : ((edgeRecords vertices).filter
        (fun r => decide (r.1 ≤ entry.1 ∧ entry.1 < r.2.ymax))).map
      (fun r => advanceBy (entry.1 - r.1).toNat r.2) = activeAt (edgeRecords vertices) entry.1 := by
    unfold activeAt
    apply List.map_congr_left
    intro r hr
    have := (List.mem_filter.mp hr).2
    simp only [decide_eq_true_eq] at this
    exact advanceBy_eq_recAt entry.1 r this.1
  constructor
  · rw [hmap]
    exact Multiset.coe_eq_coe.mpr hp
  · intro e hmem
    have hin := hp.subset hmem
    unfold activeAt at hin
    obtain ⟨r, hr, rfl⟩ := List.mem_map.mp hin
    have := (List.mem_filter.mp hr).2
    simp only [decide_eq_true_eq] at this
    exact this.2

theorem pairing_records_active_witness :
    3 ≤ diamond.length
      ∧ ((1, [⟨5, 4, -1⟩, ⟨5, 6, 1⟩]) : Int × List EdgeInfo) ∈ pairingTrace diamond
      ∧ (([⟨5, 4, -1⟩, ⟨5, 6, 1⟩] : List EdgeInfo) : Multiset EdgeInfo)
          = (((edgeRecords diamond).filter
                (fun r => decide (r.1 ≤ 1 ∧ 1 < r.2.ymax))).map
              (fun r => advanceBy ((1 : Int) - r.1).toNat r.2) : List EdgeInfo)
      ∧ ∀ e ∈ ([⟨5, 4, -1⟩, ⟨5, 6, 1⟩] : List EdgeInfo), (1 : Int) < e.ymax :=
  ⟨by decide, by rw [pairingTrace_diamond]; simp,
    pairing_records_active diamond (by decide) (1, [⟨5, 4, -1⟩, ⟨5, 6, 1⟩])
      (by rw [pairingTrace_diamond]; simp)⟩

/-- C9, the claim as stated fails: on scanline `y = 0` of the diamond the AET at the
pairing step holds the two records with `x_current = 5` in the order `inv_slope = 1`,
`inv_slope = -1`, which is not ascending `inv_slope` on equal `x_current`. -/
theorem aet_tie_order_counterexample :
    3 ≤ diamond.length
      ∧ ∃ entry ∈ pairingTrace diamond,
          entry.1 = 0 ∧ entry.2 = [⟨5, 5, 1⟩, ⟨5, 5, -1⟩] ∧ entry.2 ≠ []
            ∧ ¬ entry.2.Pairwise tieBrokenLE := by
  refine ⟨by decide, (0, [⟨5, 5, 1⟩, ⟨5, 5, -1⟩]), ?_, rfl, rfl, by simp, ?_⟩
  · rw [pairingTrace_diamond]
    exact List.mem_cons_self _ _
  · simp only [List.pairwise_cons, List.mem_singleton, forall_eq, tieBrokenLE]
    norm_num

/-- C9 as amended: for every vertex list of at least 3 vertices and every scanline
visited by the loop, the AET at the pairing step is sorted ascending by `x_current`
(nothing is said about the order of records with equal `x_current`). -/
theorem pairing_sorted_by_x (vertices : List QPoint) (_hlen : 3 ≤ vertices.length)
    (entry : Int × List EdgeInfo) (he : entry ∈ pairingTrace vertices) :
    entry.2.Pairwise (fun a b => a.x_current ≤ b.x_current) :=
  (pairingTrace_spec vertices entry he).2

theorem pairing_sorted_by_x_witness :
    3 ≤ diamond.length
      ∧ ((0, [⟨5, 5, 1⟩, ⟨5, 5, -1⟩]) : Int × List EdgeInfo) ∈ pairingTrace diamond
      ∧ [(⟨5, 5, 1⟩ : EdgeInfo), ⟨5, 5, -1⟩].Pairwise (fun a b => a.x_current ≤ b.x_current) :=
  ⟨by decide, by rw [pairingTrace_diamond]; exact List.mem_cons_self _ _,
    pairing_sorted_by_x diamond (by decide) (0, [⟨5, 5, 1⟩, ⟨5, 5, -1⟩])
      (by rw [pairingTrace_diamond]; exact List.mem_cons_self _ _)⟩

/-- C6 (span ordering): for every vertex list of at least 3 vertices, `fill` returns
a span sequence that is ascending by `y` and, among spans of equal `y`, ascending by
`x_start`. -/
theorem fill_spans_ordered (vertices : List QPoint) (hlen : 3 ≤ vertices.length) :
    ∃ spans, fill vertices = Except.ok spans ∧ spans.Pairwise spanBefore := by
  refine ⟨_, fill_ok vertices hlen, ?_⟩
  by_cases h : edgeRecords vertices = []
  · rw [(scanPolygon_nil vertices h).1]
    exact List.Pairwise.nil
  · rw [(scanPolygon_spec vertices h).1]
    exact spansFrom_pairwise _ _ _

theorem fill_spans_ordered_witness :
    3 ≤ diamond.length
      ∧ ∃ spans, fill diamond = Except.ok spans ∧ spans.Pairwise spanBefore :=
  ⟨by decide, fill_spans_ordered diamond (by decide)⟩

/-- C10 (edge coherence): with `x_current` and `inv_slope` exact rationals, for every
vertex list of at least 3 vertices, every visited scanline `y` and every record of the
AET at the pairing step of `y`, the record comes from an edge `(p1, p2)` that is not
horizontal and spans `y`, and its `x_current` equals the closed form
`x_at_ymin + (y - y_min) * (p2.x - p1.x) / (p2.y - p1.y)`, which is the abscissa where
the line through `p1` and `p2` meets height `y`; it lies between `min p1.x p2.x` and
`max p1.x p2.x`; and both ends of every emitted span lie within the range of the
vertices' abscissas. -/
theorem edge_coherence (vertices : List QPoint) (hlen : 3 ≤ vertices.length) :
    (∀ entry ∈ pairingTrace vertices, ∀ e ∈ entry.2,
        ∃ pq ∈ edges vertices, pq.1.y ≠ pq.2.y
          ∧ min pq.1.y pq.2.y ≤ entry.1 ∧ entry.1 < max pq.1.y pq.2.y
          ∧ e.ymax = max pq.1.y pq.2.y
          ∧ e.inv_slope = ((pq.2.x : ℚ) - (pq.1.x : ℚ)) / ((pq.2.y : ℚ) - (pq.1.y : ℚ))
          ∧ e.x_current = closedFormX pq.1 pq.2 entry.1
          ∧ e.x_current = crossingX pq.1 pq.2 entry.1
          ∧ ((min pq.1.x pq.2.x : Int) : ℚ) ≤ e.x_current
          ∧ e.x_current ≤ ((max pq.1.x pq.2.x : Int) : ℚ))
      ∧ ∃ spans, fill vertices = Except.ok spans
          ∧ ∀ s ∈ spans, (∃ v ∈ vertices, v.x ≤ s.x1) ∧ (∃ w ∈ vertices, s.x1 ≤ w.x)
              ∧ (∃ v ∈ vertices, v.x ≤ s.x2) ∧ (∃ w ∈ vertices, s.x2 ≤ w.x) := by
  have hround : ∀ y, ∀ e ∈ activeAt (edgeRecords vertices) y,
      (∃ v ∈ vertices, v.x ≤ roundHalfAway e.x_current)
        ∧ (∃ w ∈ vertices, roundHalfAway e.x_current ≤ w.x) := by
    intro y e he
    obtain ⟨pq, hpq, _, _, _, _, _, _, hlo, hhi⟩ := mem_activeAt_edge vertices y e he
    have hmem := mem_edges vertices pq hpq
    have h1 := roundHalfAway_mono hlo
    have h2 := roundHalfAway_mono hhi
    rw [roundHalfAway_intCast] at h1 h2
    constructor
    · rcases min_choice pq.1.x pq.2.x with hm | hm
      · exact ⟨pq.1, hmem.1, by omega⟩
      · exact ⟨pq.2, hmem.2, by omega⟩
    · rcases max_choice pq.1.x pq.2.x with hm | hm
      · exact ⟨pq.1, hmem.1, by omega⟩
      · exact ⟨pq.2, hmem.2, by omega⟩
  constructor
  · intro entry he e hmem
    have hin := ((pairingTrace_spec vertices entry he).1).subset hmem
    obtain ⟨pq, hpq, h1, h2, h3, h4, h5, h6, h7, h8⟩ :=
      mem_activeAt_edge vertices entry.1 e hin
    exact ⟨pq, hpq, h1, h2, h3, h4, h5, h6,
      by rw [h6, closedFormX_eq_crossingX _ _ _ h1], h7, h8⟩
  · refine ⟨_, fill_ok vertices hlen, ?_⟩
    intro s hs
    obtain ⟨y, hy⟩ := mem_scanPolygon_spans vertices s hs
    obtain ⟨⟨ea, hea, h1⟩, ⟨eb, heb, h2⟩⟩ := mem_spansAt_ends _ y s hy
    rw [h1, h2]
    exact ⟨(hround y ea hea).1, (hround y ea hea).2, (hround y eb heb).1, (hround y eb heb).2⟩

theorem edge_coherence_witness :
    3 ≤ diamond.length
      ∧ ∃ spans, fill diamond = Except.ok spans
          ∧ ∀ s ∈ spans, (∃ v ∈ diamond, v.x ≤ s.x1) ∧ (∃ w ∈ diamond, s.x1 ≤ w.x)
              ∧ (∃ v ∈ diamond, v.x ≤ s.x2) ∧ (∃ w ∈ diamond, s.x2 ≤ w.x) :=
  ⟨by decide, (edge_coherence diamond (by decide)).2⟩

/-- C7 (axis-aligned rectangle): for all integers `x0 < x1` and `y0 < y1`, `fill` of
`[(x0,y0),(x1,y0),(x1,y1),(x0,y1)]` is exactly the spans `(x0, y, x1, y)` for
`y = y0, y0 + 1, ..., y1 - 1`, in that order, and nothing on scanline `y1`. -/
theorem fill_rectangle (x0 y0 x1 y1 : Int) (hx : x0 < x1) (hy : y0 < y1) :
    fill (rectangle x0 y0 x1 y1)
      = Except.ok ((scanlines (y1 - y0).toNat y0).map (fun y => (⟨x0, y, x1, y⟩ : QLine))) := by
  rw [fill_ok _ (by simp [rectangle])]
  have hrec := edgeRecords_rectangle x0 y0 x1 y1 hy
  have hne : edgeRecords (rectangle x0 y0 x1 y1) ≠ [] := by simp [hrec]
  have hfk : QMap.firstKey (insertAll (edgeRecords (rectangle x0 y0 x1 y1)) []) = y0 := by
    obtain ⟨r, hr, hk⟩ := (firstKey_spec _ hne).1
    rw [← hk]
    rw [hrec] at hr
    simp only [List.mem_cons, List.mem_singleton, List.not_mem_nil, or_false] at hr
    rcases hr with rfl | rfl <;> rfl
  have hn : ((y1 - y0).toNat : Int) = y1 - y0 := Int.toNat_of_nonneg (by omega)
  rw [scanPolygon_spans _ hne (y1 - y0).toNat, hfk, hrec]
  · rw [spansFrom_rectangle x0 y0 x1 y1 hx _ y0 (le_refl _) (by omega)]
  · rw [hfk, hrec]
    intro r hr
    simp only [List.mem_cons, List.mem_singleton, List.not_mem_nil, or_false] at hr
    rcases hr with rfl | rfl <;> simp only <;> omega

theorem fill_rectangle_witness :
    (0 : Int) < 10
      ∧ fill [⟨0, 0⟩, ⟨10, 0⟩, ⟨10, 10⟩, ⟨0, 10⟩]
          = Except.ok [⟨0, 0, 10, 0⟩, ⟨0, 1, 10, 1⟩, ⟨0, 2, 10, 2⟩, ⟨0, 3, 10, 3⟩,
              ⟨0, 4, 10, 4⟩, ⟨0, 5, 10, 5⟩, ⟨0, 6, 10, 6⟩, ⟨0, 7, 10, 7⟩, ⟨0, 8, 10, 8⟩,
              ⟨0, 9, 10, 9⟩] :=
  ⟨by decide, fill_rectangle 0 0 10 10 (by decide) (by decide)⟩

/-- C3 (reversal invariance): for every vertex list of at least 3 vertices, `fill` of
the reversed list returns exactly the span sequence of `fill` of the list. -/
theorem fill_reverse (vertices : List QPoint) (hlen : 3 ≤ vertices.length) :
    fill vertices.reverse = fill vertices := by
  rw [fill_ok vertices hlen, fill_ok vertices.reverse (by simpa using hlen),
    scanPolygon_perm _ _ (edgeRecords_reverse vertices)]

theorem fill_reverse_witness :
    3 ≤ diamond.length ∧ fill diamond.reverse = fill diamond :=
  ⟨by decide, fill_reverse diamond (by decide)⟩

/-- C4 (rotation invariance): for every vertex list of at least 3 vertices and every
integer `k`, `fill` of the list cyclically rotated by `k` positions returns exactly
the span sequence of `fill` of the list. -/
theorem fill_rotate (vertices : List QPoint) (hlen : 3 ≤ vertices.length) (k : Int) :
    fill (rotateVertices vertices k) = fill vertices := by
  unfold rotateVertices
  rw [fill_ok vertices hlen, fill_ok _ (by simpa using hlen),
    scanPolygon_perm _ _ (edgeRecords_rotate vertices _)]

theorem fill_rotate_witness :
    3 ≤ diamond.length ∧ fill (rotateVertices diamond (-3)) = fill diamond :=
  ⟨by decide, fill_rotate diamond (by decide) (-3)⟩

/-- C2, the claim as stated fails: the triangle `[(0,0),(4,0),(1,2)]` is filled with
the spans `(0,0,4,0)` and `(1,1,3,1)`; moved by `(-1, 0)` it is filled with
`(-1,0,3,0)` and `(-1,1,2,1)`, while the moved spans are `(-1,0,3,0)` and `(0,1,2,1)`:
the crossing `1/2` rounds to `1`, the moved crossing `-1/2` rounds to `-1`. -/
theorem fill_translate_counterexample :
    3 ≤ halfCrossing.length
      ∧ fill halfCrossing = Except.ok [⟨0, 0, 4, 0⟩, ⟨1, 1, 3, 1⟩]
      ∧ fill (halfCrossing.map (translate (-1) 0)) = Except.ok [⟨-1, 0, 3, 0⟩, ⟨-1, 1, 2, 1⟩]
      ∧ fill (halfCrossing.map (translate (-1) 0))
          ≠ Except.ok (([⟨0, 0, 4, 0⟩, ⟨1, 1, 3, 1⟩] : List QLine).map (translateSpan (-1) 0)) := by
  refine ⟨by decide, fill_halfCrossing, fill_halfCrossing_left, ?_⟩
  rw [fill_halfCrossing_left]
  intro h
  injection h with h
  revert h
  decide

/-- C2 as amended: for every vertex list of at least 3 vertices and every integer
`dy`, `fill` of the list moved by `(0, dy)` is the span sequence of `fill` of the list
with every span moved by `(0, dy)`; negative ordinates are covered, the upper bound of
the scan starting at `0` only adds scanlines with an empty AET. Nothing is stated for a
horizontal move. -/
theorem fill_translate_vertical (vertices : List QPoint) (hlen : 3 ≤ vertices.length)
    (dy : Int) :
    ∃ spans, fill vertices = Except.ok spans
      ∧ fill (vertices.map (translate 0 dy))
          = Except.ok (spans.map (translateSpan 0 dy)) := by
  refine ⟨_, fill_ok vertices hlen, ?_⟩
  rw [fill_ok _ (by simpa using hlen)]
  congr 1
  apply scanPolygon_translate
  intro y e _
  simp

theorem fill_translate_vertical_witness :
    3 ≤ diamond.length
      ∧ ∃ spans, fill diamond = Except.ok spans
          ∧ fill (diamond.map (translate 0 (-20)))
              = Except.ok (spans.map (translateSpan 0 (-20))) :=
  ⟨by decide, fill_translate_vertical diamond (by decide) (-20)⟩

end TrabalhoCG
